import Mathlib

/-
  Verification of the `invariant-go` repository against its specification.

  The Go sources are shallowly embedded: byte slices become `List Nat`
  (each element a byte value `< 256`), Go maps become association lists,
  stateful code threads an explicit state, fallible code returns `Except`.
  Functions from the Go standard library (crypto/sha256, compress/flate,
  compress/gzip, the AES block cipher and encoding/json) are not part of
  the repository; they enter the embedding as the fields of an `Ext`
  record, and theorems assume only the contracts those libraries provide
  (for example that decompression inverts compression).  Everything that
  is code of the repository itself (src/internal/content, storage, slots,
  files, filetree, finder) is translated directly from the source.
-/

namespace Invariant

/-- Byte sequences (`[]byte` in Go); every element is intended to be `< 256`. -/
abbrev Bytes := List Nat

/-! ### encoding/hex (Go standard library, concrete embedding)

`hex.EncodeToString` / `hex.DecodeString` are simple enough to embed
directly rather than abstract. -/

/-- The lowercase hex digit table of encoding/hex
(`const hextable = "0123456789abcdef"`). -/
def hexDigits : List Char :=
  "0123456789abcdef".data

/-- Encoding of one byte as two lowercase hex characters. -/
def hexEncodeByte (b : Nat) : List Char :=
  [hexDigits.getD (b / 16) '0', hexDigits.getD (b % 16) '0']

/-- Hex encoding of a byte sequence, character list form. -/
def hexEncodeChars : Bytes → List Char
  | [] => []
  | b :: rest => hexEncodeByte b ++ hexEncodeChars rest

/-- `hex.EncodeToString`. -/
def hexEncode (bs : Bytes) : String :=
  String.mk (hexEncodeChars bs)

/-- Value of a single hex character (`fromHexChar` in encoding/hex, which
compares against the three character ranges); accepts lowercase and
uppercase as Go does. -/
def hexDigitVal (c : Char) : Option Nat :=
  if '0' ≤ c ∧ c ≤ '9' then some (c.toNat - '0'.toNat)
  else if 'a' ≤ c ∧ c ≤ 'f' then some (c.toNat - 'a'.toNat + 10)
  else if 'A' ≤ c ∧ c ≤ 'F' then some (c.toNat - 'A'.toNat + 10)
  else none

/-- Pairwise decoding of hex characters; odd length fails, as in Go. -/
def hexDecodeChars : List Char → Option Bytes
  | [] => some []
  | [_] => none
  | c1 :: c2 :: rest => do
      let hi ← hexDigitVal c1
      let lo ← hexDigitVal c2
      let tail ← hexDecodeChars rest
      some ((hi * 16 + lo) :: tail)

/-- `hex.DecodeString`. -/
def hexDecode (s : String) : Option Bytes :=
  hexDecodeChars s.data

/-! ### Content data model (src/internal/content/content.go) -/

/-- `content.ContentTransform`: a transformation applied during retrieval. -/
structure ContentTransform where
  kind : String
  algorithm : String := ""
  key : String := ""
  iv : String := ""
deriving DecidableEq

/-- `content.ContentLink`: location and retrieval recipe for content. -/
structure ContentLink where
  address : String := ""
  slot : Bool := false
  transforms : List ContentTransform := []
  expected : String := ""
  primary : String := ""
deriving DecidableEq

/-- `content.BlockListItem`: one child of a block list. -/
structure BlockListItem where
  content : ContentLink
  size : Nat
deriving DecidableEq

/-- `content.WriterOptions`; `keyPolicy` is a string in Go
(`content.KeyPolicy`), with the four constants below. -/
structure WriterOptions where
  compressAlgorithm : String := ""
  encryptAlgorithm : String := ""
  keyPolicy : String := ""
  suppliedKey : Bytes := []
deriving DecidableEq

def RandomPerBlock : String := "RandomPerBlock"
def RandomAllKey : String := "RandomAllKey"
def Deterministic : String := "Deterministic"
def SuppliedAllKey : String := "SuppliedAllKey"

/-- External (Go standard library) operations used by the content codec.
The repository calls these through crypto/sha256, compress/flate,
compress/gzip, crypto/aes and encoding/json; the embedding treats them as
parameters and theorems state only the library contracts they rely on. -/
structure Ext where
  sha256 : Bytes → Bytes
  deflateComp : Bytes → Bytes
  deflateDecomp : Bytes → Option Bytes
  gzipComp : Bytes → Bytes
  gzipDecomp : Bytes → Option Bytes
  aesEncBlock : Bytes → Bytes → Bytes
  aesDecBlock : Bytes → Bytes → Bytes
  jsonEncodeBlockList : List BlockListItem → Bytes
  jsonDecodeBlockList : Bytes → Option (List BlockListItem)

/-! ### In-memory storage (src/internal/storage/aggregate_client.go,
`InMemoryStorage`)

The Go `map[string][]byte` becomes an association list; assignment
prepends, and lookup takes the most recent binding. -/

/-- The blob store: address to blob bytes. -/
abbrev BlobStore := List (String × Bytes)

/-- Map lookup (`s.store[address]`). -/
def storeGet (st : BlobStore) (address : String) : Option Bytes :=
  match st with
  | [] => none
  | (a, d) :: rest => if a = address then some d else storeGet rest address

/-- `InMemoryStorage.Store`: hash the data, key it by the hex digest. -/
def inMemStore (E : Ext) (data : Bytes) (st : BlobStore) : String × BlobStore :=
  let address := hexEncode (E.sha256 data)
  (address, (address, data) :: st)

/-- `InMemoryStorage.StoreAt`: store only when the supplied address equals
the hex SHA-256 of the body; report `false` and leave the store unchanged
on mismatch. -/
def inMemStoreAt (E : Ext) (address : String) (data : Bytes) (st : BlobStore) :
    Bool × BlobStore :=
  let expectedAddress := hexEncode (E.sha256 data)
  if address = expectedAddress then (true, (address, data) :: st)
  else (false, st)

/-- `InMemoryStorage.Has`. -/
def inMemHas (st : BlobStore) (address : String) : Bool :=
  (storeGet st address).isSome

/-! ### Writer state

The writer consumes random bytes from `crypto/rand`; the embedding
threads an explicit stream (a function from positions to bytes) and a
position alongside the blob store. -/

structure WState where
  store : BlobStore
  rnd : Nat → Nat
  pos : Nat

/-- `io.ReadFull(rand.Reader, buf)` for a buffer of `n` bytes. -/
def randBytes (n : Nat) (s : WState) : Bytes × WState :=
  ((List.range n).map (fun i => s.rnd (s.pos + i) % 256),
   { s with pos := s.pos + n })

/-! ### BuzHash (src/internal/content/buzhash.go) -/

/-- Rolling-hash state (`content.BuzHash`); `hash` is a `uint32`. -/
structure BuzHash where
  hash : Nat
  window : Bytes
  pos : Nat
deriving DecidableEq

/-- The table `uint32(i) * 0x5bd1e995`, indexed by byte value. -/
def buzTable (c : Nat) : Nat :=
  c % 256 * 0x5bd1e995 % 4294967296

/-- 32-bit rotate left by one (`x<<1 | x>>31` on `uint32`). -/
def rotl1 (x : Nat) : Nat :=
  (x <<< 1) % 4294967296 ||| x >>> 31

/-- `content.NewBuzHash`. -/
def NewBuzHash (windowSize : Nat) : BuzHash :=
  { hash := 0, window := List.replicate windowSize 0, pos := 0 }

/-- `BuzHash.WriteB`: feed one byte, producing the updated 32-bit hash. -/
def BuzHash.WriteB (b : BuzHash) (c : Nat) : Nat × BuzHash :=
  let oldNum := b.window.getD b.pos 0
  let window := b.window.set b.pos c
  let pos := (b.pos + 1) % window.length
  let hash := rotl1 b.hash ^^^ buzTable c ^^^ rotl1 (buzTable oldNum)
  (hash, { hash := hash, window := window, pos := pos })

/-! ### Content writer (src/internal/content/writer.go) -/

def maxBlockSize : Nat := 2 * 1024 * 1024

def targetBlockSize : Nat := 1024 * 1024

/-- The split mask `uint32((1 << 20) - 1)` from `splitBlocks`. -/
def buzMask : Nat := (1 <<< 20) - 1

/-- PKCS#7 padding as performed inline by `writeBlock`. -/
def pkcs7pad (data : Bytes) : Bytes :=
  let padLen := 16 - data.length % 16
  let padLen2 := if padLen = 0 then 16 else padLen
  data ++ List.replicate padLen2 padLen2

/-- Split a byte sequence into 16-byte cipher blocks.  The fuel argument
(one unit per emitted block, `length` always suffices) keeps the
recursion structural so that concrete runs reduce definitionally. -/
def chunks16Go : Nat → Bytes → List Bytes
  | 0, _ => []
  | _ + 1, [] => []
  | f + 1, b :: rest => ((b :: rest).take 16) :: chunks16Go f ((b :: rest).drop 16)

def chunks16 (bs : Bytes) : List Bytes :=
  chunks16Go bs.length bs

/-- Concatenation of a list of byte sequences. -/
def concatBytes : List Bytes → Bytes
  | [] => []
  | b :: rest => b ++ concatBytes rest

/-- CBC encryption chaining (`cipher.NewCBCEncrypter` followed by
`CryptBlocks`): each plaintext block is XORed with the previous
ciphertext block (initially the IV) and passed through the block cipher. -/
def cbcEncryptBlocks (E : Ext) (key : Bytes) (prev : Bytes) : List Bytes → List Bytes
  | [] => []
  | blk :: rest =>
      let c := E.aesEncBlock key (List.zipWith Nat.xor blk prev)
      c :: cbcEncryptBlocks E key c rest

/-- CBC decryption chaining (`cipher.NewCBCDecrypter`). -/
def cbcDecryptBlocks (E : Ext) (key : Bytes) (prev : Bytes) : List Bytes → List Bytes
  | [] => []
  | blk :: rest =>
      List.zipWith Nat.xor (E.aesDecBlock key blk) prev :: cbcDecryptBlocks E key blk rest

def cbcEncrypt (E : Ext) (key iv data : Bytes) : Bytes :=
  concatBytes (cbcEncryptBlocks E key iv (chunks16 data))

def cbcDecrypt (E : Ext) (key iv data : Bytes) : Bytes :=
  concatBytes (cbcDecryptBlocks E key iv (chunks16 data))

/-- The key-selection step of `writeBlock` (the `switch opts.KeyPolicy`). -/
def selectKey (E : Ext) (data : Bytes) (opts : WriterOptions) (sharedKey : Option Bytes)
    (s : WState) : Except String (Bytes × WState) :=
  match opts.keyPolicy with
  | "RandomPerBlock" => Except.ok (randBytes 32 s)
  | "" => Except.ok (randBytes 32 s)
  | "RandomAllKey" =>
      match sharedKey with
      | some k => Except.ok (k, s)
      | none => Except.ok (randBytes 32 s)
  | "SuppliedAllKey" =>
      match sharedKey with
      | some k => Except.ok (k, s)
      | none =>
          if opts.suppliedKey.length = 32 then Except.ok (opts.suppliedKey, s)
          else Except.error "SuppliedKey must be 32 bytes for aes-256-cbc"
  | "Deterministic" => Except.ok (E.sha256 data, s)
  | p => Except.error ("unsupported key policy: " ++ p)

/-- The `aes-256-cbc` arm of `writeBlock`: select the key, draw a fresh
IV, pad, encrypt, store. -/
def writeBlockAes (E : Ext) (data : Bytes) (opts : WriterOptions) (sharedKey : Option Bytes)
    (expected : String) (transforms : List ContentTransform) (currentData : Bytes)
    (s : WState) : Except String (ContentLink × WState) :=
  match selectKey E data opts sharedKey s with
  | Except.error e => Except.error e
  | Except.ok (key, s1) =>
      let (iv, s2) := randBytes 16 s1
      if key.length = 16 ∨ key.length = 24 ∨ key.length = 32 then
        let paddedData := pkcs7pad currentData
        let ciphertext := cbcEncrypt E key iv paddedData
        let transforms2 : List ContentTransform :=
          { kind := "Decipher", algorithm := "aes-256-cbc",
            key := hexEncode key, iv := hexEncode iv } :: transforms
        let (address, store2) := inMemStore E ciphertext s2.store
        Except.ok ({ address := address, transforms := transforms2, expected := expected },
                   { s2 with store := store2 })
      else Except.error "invalid key size"

/-- `content.writeBlock`: hash the plaintext into `expected`, compress,
encrypt (choosing the key according to the key policy and drawing a fresh
16-byte IV), store the resulting bytes in the blob store and return the
content link whose transforms are listed in reverse write order. -/
def writeBlock (E : Ext) (data : Bytes) (opts : WriterOptions) (sharedKey : Option Bytes)
    (s : WState) : Except String (ContentLink × WState) :=
  let expected := hexEncode (E.sha256 data)
  let compRes : Except String (Bytes × List ContentTransform) :=
    match opts.compressAlgorithm with
    | "" => Except.ok (data, [])
    | "inflate" =>
        Except.ok (E.deflateComp data, [{ kind := "Decompress", algorithm := "inflate" }])
    | "gzip" =>
        Except.ok (E.gzipComp data, [{ kind := "Decompress", algorithm := "gzip" }])
    | alg => Except.error ("unsupported compression: " ++ alg)
  match compRes with
  | Except.error e => Except.error e
  | Except.ok (currentData, transforms) =>
    match opts.encryptAlgorithm with
    | "" =>
        let (address, store2) := inMemStore E currentData s.store
        Except.ok ({ address := address, transforms := transforms, expected := expected },
                   { s with store := store2 })
    | "aes-256-cbc" =>
        writeBlockAes E data opts sharedKey expected transforms currentData s
    | alg => Except.error ("unsupported encryption: " ++ alg)

/-- Loop body of `content.splitBlocks`: feed each byte to the rolling
hash; close the current chunk when the masked hash vanishes on a chunk of
at least `targetBlockSize/2` bytes, when the chunk reaches `maxBlockSize`,
or at the last byte of the stream. -/
def splitLoop (E : Ext) (opts : WriterOptions) (sharedKey : Option Bytes) :
    Bytes → BuzHash → Bytes → List BlockListItem → WState →
    Except String (List BlockListItem × WState)
  | [], _, _, blocks, s => Except.ok (blocks, s)
  | c :: rest, bh, curr, blocks, s =>
      let (h, bh2) := bh.WriteB c
      let size := curr.length + 1
      if (h &&& buzMask = 0 ∧ size ≥ targetBlockSize / 2) ∨ size = maxBlockSize ∨ rest = [] then
        match writeBlock E (curr ++ [c]) opts sharedKey s with
        | Except.error e => Except.error e
        | Except.ok (link, s2) =>
            splitLoop E opts sharedKey rest (NewBuzHash 64) []
              (blocks ++ [{ content := link, size := (curr ++ [c]).length }]) s2
      else splitLoop E opts sharedKey rest bh2 (curr ++ [c]) blocks s

/-- `content.splitBlocks`. -/
def splitBlocks (E : Ext) (data : Bytes) (opts : WriterOptions) (sharedKey : Option Bytes)
    (s : WState) : Except String (List BlockListItem × WState) :=
  splitLoop E opts sharedKey data (NewBuzHash 64) [] [] s

/-- The chunk boundaries of `splitBlocks`, as a pure function of the byte
sequence: the same loop, projected onto the chunks it emits. -/
def splitChunksLoop : Bytes → BuzHash → Bytes → List Bytes → List Bytes
  | [], _, _, acc => acc
  | c :: rest, bh, curr, acc =>
      let (h, bh2) := bh.WriteB c
      let size := curr.length + 1
      if (h &&& buzMask = 0 ∧ size ≥ targetBlockSize / 2) ∨ size = maxBlockSize ∨ rest = [] then
        splitChunksLoop rest (NewBuzHash 64) [] (acc ++ [curr ++ [c]])
      else splitChunksLoop rest bh2 (curr ++ [c]) acc

def splitChunks (data : Bytes) : List Bytes :=
  splitChunksLoop data (NewBuzHash 64) [] []

/-- `content.ceilDiv`. -/
def ceilDiv (a b : Nat) : Nat := (a + b - 1) / b

/-- Sum of the `size` fields of a group (the `subSize` accumulation in
`writeBlockList`). -/
def sumSizes (g : List BlockListItem) : Nat :=
  g.foldl (fun acc b => acc + b.size) 0

/-- The slices `items[i*1000 : min(i*1000+1000, len(items))]` for
`i < chunks`, mirroring the group loop of `writeBlockList`. -/
def groupLoop {α : Type} (items : List α) : Nat → Nat → List (List α)
  | 0, _ => []
  | n + 1, i => (items.drop (i * 1000)).take 1000 :: groupLoop items n (i + 1)

/-- The per-group body of `writeBlockList`: write each group through the
supplied recursive call, collecting one parent item per group. -/
def writeGroups (wbl : List BlockListItem → WState → Except String (ContentLink × WState)) :
    List (List BlockListItem) → WState → Except String (List BlockListItem × WState)
  | [], s => Except.ok ([], s)
  | g :: gs, s =>
      match wbl g s with
      | Except.error e => Except.error e
      | Except.ok (subListLink, s2) =>
          match writeGroups wbl gs s2 with
          | Except.error e => Except.error e
          | Except.ok (rest, s3) =>
              Except.ok ({ content := subListLink, size := sumSizes g } :: rest, s3)

/-- `content.writeBlockList`: marshal the items; when the encoding fits in
`maxBlockSize`, write it as a block, append a `Blocks` transform and clear
`expected`; otherwise partition into groups of at most 1000 and recurse.
The `fuel` argument makes Go's unbounded recursion total; every theorem
either supplies enough fuel explicitly or assumes the call succeeded. -/
def writeBlockList (E : Ext) (opts : WriterOptions) (sharedKey : Option Bytes) :
    Nat → List BlockListItem → WState → Except String (ContentLink × WState)
  | 0, _, _ => Except.error "block list recursion limit"
  | fuel + 1, items, s =>
      let data := E.jsonEncodeBlockList items
      if data.length ≤ maxBlockSize then
        match writeBlock E data opts sharedKey s with
        | Except.error e => Except.error e
        | Except.ok (link, s2) =>
            Except.ok ({ link with
                         transforms := link.transforms ++ [({ kind := "Blocks" } : ContentTransform)],
                         expected := "" }, s2)
      else
        let chunks := ceilDiv items.length 1000
        match writeGroups (writeBlockList E opts sharedKey fuel) (groupLoop items chunks 0) s with
        | Except.error e => Except.error e
        | Except.ok (parentItems, s2) => writeBlockList E opts sharedKey fuel parentItems s2

/-- `content.Write`: a stream of at most `targetBlockSize` bytes becomes a
single block; otherwise a shared key is derived for the applicable key
policies, the stream is split and the block list is written. -/
def write (E : Ext) (fuel : Nat) (data : Bytes) (opts : WriterOptions) (s : WState) :
    Except String (ContentLink × WState) :=
  if data.length = 0 then writeBlock E [] opts none s
  else if data.length ≤ targetBlockSize then writeBlock E data opts none s
  else
    let skRes : Except String (Option Bytes × WState) :=
      match opts.keyPolicy with
      | "RandomAllKey" =>
          let (k, s2) := randBytes 32 s
          Except.ok (some k, s2)
      | "SuppliedAllKey" =>
          if opts.suppliedKey.length = 32 then Except.ok (some opts.suppliedKey, s)
          else Except.error "SuppliedKey must be 32 bytes for aes-256-cbc"
      | _ => Except.ok (none, s)
    match skRes with
    | Except.error e => Except.error e
    | Except.ok (sharedKey, s1) =>
        match splitBlocks E data opts sharedKey s1 with
        | Except.error e => Except.error e
        | Except.ok (blocks, s2) => writeBlockList E opts sharedKey fuel blocks s2

/-! ### Content reader (src/internal/content/reader.go) -/

/-- Slot registries (`map[string]string` of `MemorySlots`). -/
abbrev SlotMap := List (String × String)

def slotGet (m : SlotMap) (id : String) : Option String :=
  match m with
  | [] => none
  | (k, v) :: rest => if k = id then some v else slotGet rest id

/-- Read-and-concatenate over the children of a block list
(`blockListReader`). -/
def readConcat (readChild : ContentLink → Except String Bytes) :
    List BlockListItem → Except String Bytes
  | [] => Except.ok []
  | item :: rest =>
      match readChild item.content with
      | Except.error e => Except.error e
      | Except.ok d =>
          match readConcat readChild rest with
          | Except.error e => Except.error e
          | Except.ok ds => Except.ok (d ++ ds)

/-- `content.applyTransform`; recursion into child links (the `Blocks`
case) happens through the `readChild` callback. -/
def applyTransform (E : Ext) (readChild : ContentLink → Except String Bytes)
    (t : ContentTransform) (data : Bytes) : Except String Bytes :=
  if t.kind = "Decompress" then
    if t.algorithm = "inflate" then
      match E.deflateDecomp data with
      | some d => Except.ok d
      | none => Except.error "inflate error"
    else if t.algorithm = "gzip" then
      match E.gzipDecomp data with
      | some d => Except.ok d
      | none => Except.error "gzip error"
    else Except.error ("unsupported transform algorithm: Decompress " ++ t.algorithm)
  else if t.kind = "Decipher" then
    if t.algorithm = "aes-256-cbc" then
        match hexDecode t.key with
        | none => Except.error "invalid key hex"
        | some key =>
            match hexDecode t.iv with
            | none => Except.error "invalid iv hex"
            | some iv =>
                if key.length = 16 ∨ key.length = 24 ∨ key.length = 32 then
                  if data.length = 0 ∨ data.length % 16 ≠ 0 then
                    Except.error "ciphertext is not a multiple of the block size"
                  else
                    let plaintext := cbcDecrypt E key iv data
                    let padLen := plaintext.getD (plaintext.length - 1) 0
                    if padLen > 16 ∨ padLen = 0 then Except.error "invalid padding"
                    else if (plaintext.drop (plaintext.length - padLen)).all
                        (fun x => x == padLen) then
                      Except.ok (plaintext.take (plaintext.length - padLen))
                    else Except.error "invalid padding"
                else Except.error "invalid key size"
    else Except.error ("unsupported transform algorithm: Decipher " ++ t.algorithm)
  else if t.kind = "Blocks" then
    match E.jsonDecodeBlockList data with
    | none => Except.error "failed to parse block list"
    | some bl => readConcat readChild bl
  else Except.error ("unsupported transform kind: " ++ t.kind)

/-- The transform fold of `content.Read`: apply each transform in listed
order, feeding the output of one into the next. -/
def readTransforms (E : Ext) (readChild : ContentLink → Except String Bytes) :
    List ContentTransform → Bytes → Except String Bytes
  | [], data => Except.ok data
  | t :: ts, data =>
      match applyTransform E readChild t data with
      | Except.error e => Except.error e
      | Except.ok d => readTransforms E readChild ts d

/-- `content.Read`: resolve the slot if requested, fetch the blob, apply
the transforms in order, and verify the running SHA-256 against `expected`
when it is set.  `fuel` bounds the recursion through nested block lists. -/
def read (E : Ext) (store : BlobStore) (slotService : Option SlotMap) :
    Nat → ContentLink → Except String Bytes
  | 0, _ => Except.error "read recursion limit"
  | fuel + 1, link =>
      let addrRes : Except String String :=
        if link.slot then
          match slotService with
          | none => Except.error "slot service missing for slot link"
          | some slots =>
              match slotGet slots link.address with
              | none => Except.error "slot not found"
              | some a => Except.ok a
        else Except.ok link.address
      match addrRes with
      | Except.error e => Except.error e
      | Except.ok address =>
          match storeGet store address with
          | none => Except.error ("block not found: " ++ address)
          | some data =>
              match readTransforms E (read E store slotService fuel) link.transforms data with
              | Except.error e => Except.error e
              | Except.ok res =>
                  if link.expected ≠ "" ∧ hexEncode (E.sha256 res) ≠ link.expected then
                    Except.error "hash mismatch"
                  else Except.ok res

/-! ### Slot registries (src/internal/slots)

`MemorySlots` keeps a `map[string]string`; `FileSystemSlots` additionally
appends one JSON record to its journal before applying a successful
mutation.  The Go methods mutate their receiver and return an error; the
embedding returns the error option together with the resulting state, so
that "the failure paths leave the state untouched" is a provable statement
about the source rather than an artifact of the encoding. -/

inductive SlotErr where
  | slotNotFound
  | conflict
  | slotExists
deriving DecidableEq

/-- Map assignment `m.slots[id] = address`. -/
def slotSet (m : SlotMap) (id address : String) : SlotMap :=
  (id, address) :: m.filter (fun p => p.1 ≠ id)

/-- `MemorySlots.Get`. -/
def memGet (m : SlotMap) (id : String) : Except SlotErr String :=
  match slotGet m id with
  | none => Except.error SlotErr.slotNotFound
  | some addr => Except.ok addr

/-- `MemorySlots.Update`: not-found and conflict return before the
assignment, leaving the map unchanged. -/
def memUpdate (m : SlotMap) (id address previousAddress : String) :
    Option SlotErr × SlotMap :=
  match slotGet m id with
  | none => (some SlotErr.slotNotFound, m)
  | some currentAddr =>
      if currentAddr ≠ previousAddress then (some SlotErr.conflict, m)
      else (none, slotSet m id address)

/-- `MemorySlots.Create`. -/
def memCreate (m : SlotMap) (id address : String) : Option SlotErr × SlotMap :=
  match slotGet m id with
  | some _ => (some SlotErr.slotExists, m)
  | none => (none, slotSet m id address)

/-- One record of a `FileSystemSlots` journal. -/
structure JEntry where
  op : String
  id : String
  address : String
deriving DecidableEq

/-- The persistent state of `FileSystemSlots`: the in-memory map plus the
active journal contents. -/
structure FsSlots where
  store : SlotMap
  journal : List JEntry
deriving DecidableEq

/-- `FileSystemSlots.Update`: the not-found and conflict paths return
before anything is journalled or assigned. -/
def fsUpdate (s : FsSlots) (id address previousAddress : String) :
    Option SlotErr × FsSlots :=
  match slotGet s.store id with
  | none => (some SlotErr.slotNotFound, s)
  | some currentAddr =>
      if currentAddr ≠ previousAddress then (some SlotErr.conflict, s)
      else
        (none,
         { store := slotSet s.store id address,
           journal := s.journal ++ [{ op := "PUT", id := id, address := address }] })

/-- `FileSystemSlots.Create`. -/
def fsCreate (s : FsSlots) (id address : String) : Option SlotErr × FsSlots :=
  match slotGet s.store id with
  | some _ => (some SlotErr.slotExists, s)
  | none =>
      (none,
       { store := slotSet s.store id address,
         journal := s.journal ++ [{ op := "POST", id := id, address := address }] })

/-! ### Kademlia routing (src/internal/finder/kademlia.go) -/

/-- Kademlia K value (`finder.BucketSize`). -/
def BucketSize : Nat := 20

/-- `finder.IDLength` in bytes. -/
def IDLength : Nat := 32

/-- A node id: 32 bytes. -/
abbrev NodeID := List Nat

/-- `NodeID.XOR`. -/
def nodeXOR (n other : NodeID) : NodeID :=
  List.zipWith Nat.xor n other

/-- The inner loop of `PrefixLen`: index of the first set bit of a byte
from the left (`8` when no bit of the low eight is set). -/
def firstSetBit (b : Nat) : Nat :=
  if b &&& 128 ≠ 0 then 0
  else if b &&& 64 ≠ 0 then 1
  else if b &&& 32 ≠ 0 then 2
  else if b &&& 16 ≠ 0 then 3
  else if b &&& 8 ≠ 0 then 4
  else if b &&& 4 ≠ 0 then 5
  else if b &&& 2 ≠ 0 then 6
  else if b &&& 1 ≠ 0 then 7
  else 8

/-- The byte loop of `NodeID.PrefixLen`. -/
def prefixLenLoop : List Nat → List Nat → Nat → Nat
  | a :: ra, b :: rb, i =>
      let x := a ^^^ b
      if x ≠ 0 ∧ firstSetBit x ≠ 8 then i * 8 + firstSetBit x
      else prefixLenLoop ra rb (i + 1)
  | _, _, _ => IDLength * 8

/-- `NodeID.PrefixLen`. -/
def prefixLen (n other : NodeID) : Nat :=
  prefixLenLoop n other 0

/-- `finder.RoutingTable`: 256 buckets, most recently seen last. -/
structure RoutingTable where
  self : NodeID
  buckets : Nat → List NodeID

/-- `finder.NewRoutingTable`. -/
def NewRoutingTable (self : NodeID) : RoutingTable :=
  { self := self, buckets := fun _ => [] }

/-- Removal of the first occurrence, matching
`append(bucket[:i], bucket[i+1:]...)` for the found index `i`. -/
def removeFirst : List NodeID → NodeID → List NodeID
  | [], _ => []
  | x :: rest, n => if x = n then rest else x :: removeFirst rest n

/-- `RoutingTable.Add`: never insert self; promote a known id to the
tail; append when the bucket has room; otherwise evict the head. -/
def RoutingTable.Add (rt : RoutingTable) (node : NodeID) : RoutingTable :=
  if node = rt.self then rt
  else
    let bucketIdx := prefixLen rt.self node
    if bucketIdx = IDLength * 8 then rt
    else
      let bucket := rt.buckets bucketIdx
      let newBucket :=
        if node ∈ bucket then removeFirst bucket node ++ [node]
        else if bucket.length < BucketSize then bucket ++ [node]
        else bucket.tail ++ [node]
      { rt with buckets := fun i => if i = bucketIdx then newBucket else rt.buckets i }

/-- A sequence of `Add` operations. -/
def addAll (rt : RoutingTable) : List NodeID → RoutingTable
  | [] => rt
  | n :: ns => addAll (rt.Add n) ns

/-- Specification-side count of the leading zero bits of a 256-bit value
given as its byte sequence (most significant byte and bit first). -/
def byteBits (b : Nat) : List Bool :=
  [b.testBit 7, b.testBit 6, b.testBit 5, b.testBit 4,
   b.testBit 3, b.testBit 2, b.testBit 1, b.testBit 0]

def idBits : List Nat → List Bool
  | [] => []
  | b :: rest => byteBits b ++ idBits rest

def leadingZeroBits : List Bool → Nat
  | [] => 0
  | b :: rest => if b then 0 else 1 + leadingZeroBits rest

/-! ### File-tree manifests (src/internal/filetree/filetree.go) -/

/-- `filetree.EntryKind` values (strings in Go). -/
def FileKind : String := "File"

def DirectoryKind : String := "Directory"

def SymbolicLinkKind : String := "SymbolicLink"

/-- The DOS reserved base names of `filetree.dosSpecialNames`. -/
def dosSpecialNames : List String :=
  ["CON", "PRN", "AUX", "NUL",
   "COM1", "COM2", "COM3", "COM4", "COM5", "COM6", "COM7", "COM8", "COM9",
   "LPT1", "LPT2", "LPT3", "LPT4", "LPT5", "LPT6", "LPT7", "LPT8", "LPT9"]

/-- `filetree.isValidName`.  `strings.ToUpper` is embedded as the ASCII
character upper-casing (the DOS names are ASCII); truncating at the first
dot (`strings.IndexByte` followed by the slice) is expressed as
`takeWhile`, which agrees whether or not a dot occurs. -/
def isValidName (name : String) : Bool :=
  if name = "" ∨ name = "." ∨ name = ".." then false
  else if name.data.contains '/' then false
  else
    let upperName := name.data.map Char.toUpper
    let trimmed := upperName.takeWhile (fun c => c ≠ '.')
    ¬ dosSpecialNames.contains (String.mk trimmed)

/-! ### File-tree engine (src/internal/files/inmemory_files.go)

Nodes live in a `map[uint64]*Node`; the embedding uses an association
list keyed by the dense id.  Mutating methods of `InMemoryFiles` return
`Except` and thread the state; `time.Now()` becomes an explicit `now`
argument.  The recursions of `markDirty` and `deleteNodeRecursively`
follow parent and child links of a graph that Go assumes to be acyclic;
fuel arguments make them total, and theorems supply sufficient fuel. -/

/-- `files.Node`.  The Go field `Type` is spelled `ftype` (`type` is
reserved in Lean). -/
structure FNode where
  id : Nat := 0
  name : String := ""
  kind : String := ""
  parents : List Nat := []
  createTime : Option Nat := none
  modifyTime : Option Nat := none
  mode : Option String := none
  size : Nat := 0
  ftype : String := ""
  content : ContentLink := {}
  children : List (String × Nat) := []
  target : String := ""
  isDirty : Bool := false
  isLoaded : Bool := false
deriving DecidableEq

/-- A directory-manifest entry (`filetree.Entry`); the three Go variants
(File, Directory, SymbolicLink) are flattened behind the `kind` tag. -/
structure FEntry where
  kind : String := ""
  name : String := ""
  createTime : Option Nat := none
  modifyTime : Option Nat := none
  mode : Option String := none
  content : ContentLink := {}
  size : Nat := 0
  ftype : String := ""
  target : String := ""
deriving DecidableEq

/-- File-level external operation (encoding/json on `filetree.Directory`). -/
structure FExt where
  jsonDecodeDirectory : Bytes → Option (List FEntry)

/-- Construction inputs of `NewInMemoryFiles` (`files.Options`). -/
structure FOptions where
  slots : Option SlotMap := none
  rootLink : ContentLink := {}
  writerOptions : WriterOptions := {}

/-- `InMemoryFiles.isWritable`. -/
def isWritable (opts : FOptions) : Bool :=
  opts.slots.isSome ∧ opts.rootLink.slot

/-- The mutable state of `InMemoryFiles`. -/
structure FilesState where
  nodes : List (Nat × FNode)
  root : Nat
  next : Nat
  dirtyNodes : List Nat
  lastSlotAddress : String
  wstate : WState

def nodesGet (ns : List (Nat × FNode)) (id : Nat) : Option FNode :=
  match ns with
  | [] => none
  | (k, v) :: rest => if k = id then some v else nodesGet rest id

def nodesSet (ns : List (Nat × FNode)) (id : Nat) (node : FNode) : List (Nat × FNode) :=
  (id, node) :: ns.filter (fun p => p.1 ≠ id)

def nodesDel (ns : List (Nat × FNode)) (id : Nat) : List (Nat × FNode) :=
  ns.filter (fun p => p.1 ≠ id)

def childGet (cs : List (String × Nat)) (name : String) : Option Nat :=
  match cs with
  | [] => none
  | (k, v) :: rest => if k = name then some v else childGet rest name

def childSet (cs : List (String × Nat)) (name : String) (id : Nat) : List (String × Nat) :=
  (name, id) :: cs.filter (fun p => p.1 ≠ name)

def childDel (cs : List (String × Nat)) (name : String) : List (String × Nat) :=
  cs.filter (fun p => p.1 ≠ name)

/-- `InMemoryFiles` construction state (`NewInMemoryFiles`): the root node
has id 1 and starts loaded exactly when the root link has no address. -/
def initialFiles (opts : FOptions) (store0 : BlobStore) (rnd : Nat → Nat) (now : Nat) :
    FilesState :=
  let rootNode : FNode :=
    { id := 1, name := "", kind := "Directory", createTime := some now,
      modifyTime := some now, content := opts.rootLink,
      isLoaded := opts.rootLink.address = "" }
  { nodes := [(1, rootNode)],
    root := 1, next := 2, dirtyNodes := [], lastSlotAddress := "",
    wstate := { store := store0, rnd := rnd, pos := 0 } }

/-- The parent loop of `markDirty`; the recursive call is passed in. -/
def markDirtyParents (md : Nat → FilesState → FilesState) :
    List Nat → FilesState → FilesState
  | [], s => s
  | p :: ps, s =>
      markDirtyParents md ps (if p ≠ 0 then md p s else s)

/-- `InMemoryFiles.markDirty`: record the id in `dirtyNodes`, set the
node's dirty flag, refresh its modify time, and recurse into every
parent.  The fuel argument totalizes the recursion, which in Go
terminates because parent links form a DAG. -/
def markDirty (now : Nat) : Nat → Nat → FilesState → FilesState
  | 0, _, s => s
  | fuel + 1, id, s =>
      let s1 := { s with dirtyNodes := id :: s.dirtyNodes }
      match nodesGet s1.nodes id with
      | none => s1
      | some node =>
          let node2 := { node with isDirty := true, modifyTime := some now }
          let s2 := { s1 with nodes := nodesSet s1.nodes id node2 }
          markDirtyParents (markDirty now fuel) node2.parents s2

/-- The child loop of `deleteNodeRecursively`; the recursive call is
passed in. -/
def delChildren (del : Nat → Nat → FilesState → FilesState) :
    List (String × Nat) → Nat → FilesState → FilesState
  | [], _, s => s
  | (_, cid) :: rest, id, s =>
      delChildren del rest id (del cid id s)

/-- `InMemoryFiles.deleteNodeRecursively`, totalized with fuel. -/
def deleteNodeRec : Nat → Nat → Nat → FilesState → FilesState
  | 0, _, _, s => s
  | fuel + 1, id, parentID, s =>
      match nodesGet s.nodes id with
      | none => s
      | some node =>
          let node2 := if parentID ≠ 0
            then { node with parents := node.parents.filter (fun p => p ≠ parentID) }
            else node
          let s2 := { s with nodes := nodesSet s.nodes id node2 }
          if parentID ≠ 0 ∧ node2.parents.length > 0 then s2
          else
            let s3 := if node2.kind = "Directory"
              then delChildren (deleteNodeRec fuel) node2.children id s2
              else s2
            { s3 with nodes := nodesDel s3.nodes id,
                      dirtyNodes := s3.dirtyNodes.filter (fun d => d ≠ id) }

/-- The child-materialization loop of `ensureLoaded`. -/
def materialize : List FEntry → Nat → FilesState → FilesState
  | [], _, s => s
  | entry :: rest, pid, s =>
      let childID := s.next
      let s1 := { s with next := s.next + 1 }
      let base : FNode :=
        { id := childID, name := entry.name, kind := entry.kind, parents := [pid] }
      let childNode :=
        if entry.kind = "File" then
          { base with
            createTime := entry.createTime, modifyTime := entry.modifyTime,
            mode := entry.mode, content := entry.content, size := entry.size,
            ftype := entry.ftype }
        else if entry.kind = "Directory" then
          { base with
            createTime := entry.createTime, modifyTime := entry.modifyTime,
            mode := entry.mode, content := entry.content, size := entry.size,
            children := [] }
        else if entry.kind = "SymbolicLink" then
          { base with
            createTime := entry.createTime, modifyTime := entry.modifyTime,
            mode := entry.mode, target := entry.target }
        else base
      let s2 := { s1 with nodes := nodesSet s1.nodes childID childNode }
      let s3 := match nodesGet s2.nodes pid with
        | none => s2
        | some pnode =>
            let pnode2 := { pnode with children := childSet pnode.children childNode.name childID }
            { s2 with nodes := nodesSet s2.nodes pid pnode2 }
      materialize rest pid s3

/-- `InMemoryFiles.ensureLoaded`: idempotent lazy loading of a directory
through the content reader. -/
def ensureLoaded (E : Ext) (FE : FExt) (opts : FOptions) (rfuel : Nat) (id : Nat)
    (s : FilesState) : Except String FilesState :=
  match nodesGet s.nodes id with
  | none => Except.error "node not found"
  | some node =>
      if node.kind ≠ "Directory" then Except.error "node is not a directory"
      else if node.isLoaded then Except.ok s
      else if node.content.address = "" then
        Except.ok { s with nodes := nodesSet s.nodes id { node with isLoaded := true } }
      else
        match read E s.wstate.store opts.slots rfuel node.content with
        | Except.error e => Except.error e
        | Except.ok data =>
            match FE.jsonDecodeDirectory data with
            | none => Except.error "failed to unmarshal directory"
            | some d =>
                let s2 := materialize d id s
                match nodesGet s2.nodes id with
                | none => Except.ok s2
                | some node2 =>
                    Except.ok { s2 with
                      nodes := nodesSet s2.nodes id { node2 with isLoaded := true } }

/-- `InMemoryFiles.CreateEntry`.  Note that no name validation happens
here: the name is inserted as given. -/
def createEntry (E : Ext) (FE : FExt) (opts : FOptions) (rfuel wfuel mdfuel now : Nat)
    (parentID : Nat) (name kind target : String) (contentLink : Option ContentLink)
    (contentData : Option Bytes) (s : FilesState) : Except String FilesState :=
  if ¬ isWritable opts then Except.error "file system is read-only"
  else
    match ensureLoaded E FE opts rfuel parentID s with
    | Except.error e => Except.error e
    | Except.ok s1 =>
        let childID := s1.next
        let s2 := { s1 with next := s1.next + 1 }
        let base : FNode :=
          { id := childID, name := name, kind := kind, parents := [parentID],
            createTime := some now, modifyTime := some now }
        let contentRes : Except String (FNode × FilesState) :=
          if kind = "File" ∨ kind = "Directory" then
            match contentLink with
            | some l =>
                let n1 := { base with content := l }
                Except.ok ((if kind = "Directory" then { n1 with children := [], isLoaded := true }
                            else n1), s2)
            | none =>
                match write E wfuel (contentData.getD []) opts.writerOptions s2.wstate with
                | Except.error e => Except.error ("failed to save file: " ++ e)
                | Except.ok (link, w2) =>
                    let n1 := { base with content := link }
                    Except.ok ((if kind = "Directory" then { n1 with children := [], isLoaded := true }
                                else n1), { s2 with wstate := w2 })
          else if kind = "SymbolicLink" then
            if target = "" then Except.error "target is required for SymbolicLink"
            else Except.ok ({ base with target := target }, s2)
          else Except.ok (base, s2)
        match contentRes with
        | Except.error e => Except.error e
        | Except.ok (childNode, s3) =>
            let s4 := { s3 with nodes := nodesSet s3.nodes childID childNode }
            let s5 := match nodesGet s4.nodes parentID with
              | none => s4
              | some pnode =>
                  let pnode2 := { pnode with children := childSet pnode.children name childID }
                  { s4 with nodes := nodesSet s4.nodes parentID pnode2 }
            Except.ok (markDirty now mdfuel parentID s5)

/-- `InMemoryFiles.Link`: bind `name` in the parent directory to an
existing node, adding the parent to the target's parent set. -/
def linkNode (E : Ext) (FE : FExt) (opts : FOptions) (rfuel mdfuel now : Nat)
    (parentID : Nat) (name : String) (targetNodeID : Nat) (s : FilesState) :
    Except String FilesState :=
  if ¬ isWritable opts then Except.error "file system is read-only"
  else
    match ensureLoaded E FE opts rfuel parentID s with
    | Except.error e => Except.error e
    | Except.ok s1 =>
        match nodesGet s1.nodes targetNodeID with
        | none => Except.error "target node not found"
        | some targetNode =>
            let s2 := match nodesGet s1.nodes parentID with
              | none => s1
              | some pnode =>
                  let pnode2 := { pnode with children := childSet pnode.children name targetNodeID }
                  { s1 with nodes := nodesSet s1.nodes parentID pnode2 }
            let newParents := if parentID ∈ targetNode.parents then targetNode.parents
                              else targetNode.parents ++ [parentID]
            let target2 := { targetNode with parents := newParents }
            let s3 := { s2 with nodes := nodesSet s2.nodes targetNodeID target2 }
            Except.ok (markDirty now mdfuel parentID s3)

/-- `InMemoryFiles.WriteFile`: replace the file's content link with a
fresh write of the supplied bytes and mark the node dirty. -/
def writeFile (E : Ext) (opts : FOptions) (wfuel mdfuel now : Nat) (nodeID : Nat)
    (data : Bytes) (s : FilesState) : Except String FilesState :=
  if ¬ isWritable opts then Except.error "file system is read-only"
  else
    match nodesGet s.nodes nodeID with
    | none => Except.error "invalid file node"
    | some node =>
        if node.kind ≠ "File" then Except.error "invalid file node"
        else
          match write E wfuel data opts.writerOptions s.wstate with
          | Except.error e => Except.error e
          | Except.ok (link, w2) =>
              let node2 := { node with content := link }
              let s2 := { s with wstate := w2, nodes := nodesSet s.nodes nodeID node2 }
              Except.ok (markDirty now mdfuel nodeID s2)

/-- `InMemoryFiles.Remove`: unlink one name from the parent and free the
subtree that reaches zero parents. -/
def removeEntry (E : Ext) (FE : FExt) (opts : FOptions) (rfuel mdfuel dfuel now : Nat)
    (parentID : Nat) (name : String) (s : FilesState) : Except String FilesState :=
  if ¬ isWritable opts then Except.error "file system is read-only"
  else
    match ensureLoaded E FE opts rfuel parentID s with
    | Except.error e => Except.error e
    | Except.ok s1 =>
        match nodesGet s1.nodes parentID with
        | none => Except.error "node not found"
        | some pnode =>
            match childGet pnode.children name with
            | none => Except.error "entry not found"
            | some childID =>
                let pnode2 := { pnode with children := childDel pnode.children name }
                let s2 := { s1 with nodes := nodesSet s1.nodes parentID pnode2 }
                let s3 := markDirty now mdfuel parentID s2
                Except.ok (deleteNodeRec dfuel childID parentID s3)

/-- `InMemoryFiles.SetAttributes` input. -/
structure EntryAttributes where
  createTime : Option Nat := none
  modifyTime : Option Nat := none
  mode : Option String := none
  size : Option Nat := none
  ftype : Option String := none
deriving DecidableEq

/-- `InMemoryFiles.SetAttributes`. -/
def setAttributes (opts : FOptions) (mdfuel now : Nat) (nodeID : Nat)
    (attrs : EntryAttributes) (s : FilesState) : Except String FilesState :=
  if ¬ isWritable opts then Except.error "file system is read-only"
  else
    match nodesGet s.nodes nodeID with
    | none => Except.error "node not found"
    | some node =>
        let n1 := match attrs.createTime with
          | some t => { node with createTime := some t }
          | none => node
        let n2 := match attrs.modifyTime with
          | some t => { n1 with modifyTime := some t }
          | none => n1
        let n3 := match attrs.mode with
          | some m => { n2 with mode := some m }
          | none => n2
        let n4 := match attrs.size with
          | some sz => if node.kind = "File" then { n3 with size := sz } else n3
          | none => n3
        let n5 := match attrs.ftype with
          | some ty =>
              if node.kind = "File" then
                if ty = "-" then { n4 with ftype := "" } else { n4 with ftype := ty }
              else n4
          | none => n4
        let s2 := { s with nodes := nodesSet s.nodes nodeID n5 }
        Except.ok (markDirty now mdfuel nodeID s2)

/-- `InMemoryFiles.Rename`: move a child entry, first removing any entry
already bound to the new name. -/
def renameEntry (E : Ext) (FE : FExt) (opts : FOptions) (rfuel mdfuel dfuel now : Nat)
    (parentID : Nat) (oldName : String) (newParentID : Nat) (newName : String)
    (s : FilesState) : Except String FilesState :=
  if ¬ isWritable opts then Except.error "file system is read-only"
  else
    match ensureLoaded E FE opts rfuel parentID s with
    | Except.error e => Except.error e
    | Except.ok s1 =>
        match ensureLoaded E FE opts rfuel newParentID s1 with
        | Except.error e => Except.error e
        | Except.ok s2 =>
            match nodesGet s2.nodes parentID with
            | none => Except.error "node not found"
            | some pnode =>
                match childGet pnode.children oldName with
                | none => Except.error "entry not found"
                | some childID =>
                    let s3 := match nodesGet s2.nodes newParentID with
                      | none => s2
                      | some npnode =>
                          match childGet npnode.children newName with
                          | none => s2
                          | some targetChildID =>
                              let npnode2 :=
                                { npnode with children := childDel npnode.children newName }
                              let t1 :=
                                { s2 with nodes := nodesSet s2.nodes newParentID npnode2 }
                              deleteNodeRec dfuel targetChildID newParentID t1
                    let s4 := match nodesGet s3.nodes childID with
                      | none => s3
                      | some node =>
                          let pruned := node.parents.filter (fun p => p ≠ parentID)
                          let node2 :=
                            { node with
                              name := newName,
                              parents := pruned ++
                                (if newParentID ∈ pruned then [] else [newParentID]),
                              modifyTime := some now }
                          { s3 with nodes := nodesSet s3.nodes childID node2 }
                    let s5 := match nodesGet s4.nodes parentID with
                      | none => s4
                      | some pn2 =>
                          let pn3 := { pn2 with children := childDel pn2.children oldName }
                          { s4 with nodes := nodesSet s4.nodes parentID pn3 }
                    let s6 := match nodesGet s5.nodes newParentID with
                      | none => s5
                      | some npn2 =>
                          let npn3 := { npn2 with children := childSet npn2.children newName childID }
                          { s5 with nodes := nodesSet s5.nodes newParentID npn3 }
                    let s7 := markDirty now mdfuel parentID s6
                    let s8 := markDirty now mdfuel newParentID s7
                    Except.ok (markDirty now mdfuel childID s8)

/-! ## Verification

### C10: the in-memory storage keys every blob by its own hash -/

/-- The operations that can grow an `InMemoryStorage` map. -/
inductive StorageOp where
  | store (data : Bytes)
  | storeAt (address : String) (data : Bytes)

/-- A sequence of `Store`/`StoreAt` calls applied to a store. -/
def applyOps (E : Ext) : List StorageOp → BlobStore → BlobStore
  | [], st => st
  | StorageOp.store d :: rest, st => applyOps E rest (inMemStore E d st).2
  | StorageOp.storeAt a d :: rest, st => applyOps E rest (inMemStoreAt E a d st).2

/-- Every address of the store maps to bytes whose hex SHA-256 is that
address. -/
def HashKeyed (E : Ext) (st : BlobStore) : Prop :=
  ∀ a d, storeGet st a = some d → a = hexEncode (E.sha256 d)

theorem hashKeyed_insert {E : Ext} {st : BlobStore} (h : HashKeyed E st)
    {a0 : String} {d0 : Bytes} (h0 : a0 = hexEncode (E.sha256 d0)) :
    HashKeyed E ((a0, d0) :: st) := by
  intro a d hget
  simp only [storeGet] at hget
  by_cases hc : a0 = a
  · simp only [hc, if_pos rfl] at hget
    cases hget
    exact hc ▸ h0
  · simp only [if_neg hc] at hget
    exact h a d hget

theorem hashKeyed_applyOps {E : Ext} (ops : List StorageOp) (st : BlobStore)
    (h : HashKeyed E st) : HashKeyed E (applyOps E ops st) := by
  induction ops generalizing st with
  | nil => exact h
  | cons op rest ih =>
      cases op with
      | store d =>
          exact ih _ (hashKeyed_insert h rfl)
      | storeAt a d =>
          simp only [applyOps, inMemStoreAt]
          by_cases hc : a = hexEncode (E.sha256 d)
          · simp only [if_pos hc]
            exact ih _ (hashKeyed_insert h hc)
          · simp only [if_neg hc]
            exact ih _ h

/-- C10. Starting from the empty map of `NewInMemoryStorage`, any
sequence of `Store`/`StoreAt` operations leaves every stored blob keyed
by the lowercase-hex SHA-256 of its own bytes: `Store` computes the
address by hashing the data, and `StoreAt` inserts only when the supplied
address equals the hash of the body, returning `false` and leaving the
store unchanged on mismatch. -/
theorem C10_inmemory_storage_hash_keyed (E : Ext) :
    (∀ ops : List StorageOp, HashKeyed E (applyOps E ops [])) ∧
    (∀ d st, (inMemStore E d st).1 = hexEncode (E.sha256 d)) ∧
    (∀ a d st, a ≠ hexEncode (E.sha256 d) → inMemStoreAt E a d st = (false, st)) := by
  refine ⟨fun ops => hashKeyed_applyOps ops [] ?_, fun d st => rfl, fun a d st hne => ?_⟩
  · intro a d hget
    simp [storeGet] at hget
  · simp [inMemStoreAt, if_neg hne]

/-- A concrete external-operations record used to instantiate theorems
with hypotheses at concrete inputs: the identity codec, the identity
block cipher, and a constant digest. -/
def constExt : Ext :=
  { sha256 := fun _ => List.replicate 32 0,
    deflateComp := fun b => b, deflateDecomp := fun b => some b,
    gzipComp := fun b => b, gzipDecomp := fun b => some b,
    aesEncBlock := fun _ b => b, aesDecBlock := fun _ b => b,
    jsonEncodeBlockList := fun _ => [], jsonDecodeBlockList := fun _ => none }

theorem C10_inmemory_storage_hash_keyed_witness :
    storeGet (applyOps constExt [StorageOp.store [1]] []) (hexEncode (List.replicate 32 0)) =
      some [1] ∧
    hexEncode (List.replicate 32 0) = hexEncode (constExt.sha256 [1]) := by
  constructor
  · decide
  · exact (C10_inmemory_storage_hash_keyed constExt).1 [StorageOp.store [1]]
      (hexEncode (List.replicate 32 0)) [1] (by decide)

/-! ### C6: compare-and-swap semantics of the slot update -/

/-- C6. For both the durable (`FileSystemSlots`) and the in-memory slot
map, `update(id, address, previousAddress)` fails with not-found when the
id is absent and with a conflict when the stored value differs from
`previousAddress`; both failures leave the map (and, for the durable map,
the journal) unchanged.  On success the new address is stored. -/
theorem C6_slot_update_cas (m : SlotMap) (fs : FsSlots) (id address previousAddress : String) :
    (slotGet m id = none →
      memUpdate m id address previousAddress = (some SlotErr.slotNotFound, m)) ∧
    (∀ cur, slotGet m id = some cur → cur ≠ previousAddress →
      memUpdate m id address previousAddress = (some SlotErr.conflict, m)) ∧
    (∀ cur, slotGet m id = some cur → cur = previousAddress →
      memUpdate m id address previousAddress = (none, slotSet m id address) ∧
      slotGet (slotSet m id address) id = some address) ∧
    (slotGet fs.store id = none →
      fsUpdate fs id address previousAddress = (some SlotErr.slotNotFound, fs)) ∧
    (∀ cur, slotGet fs.store id = some cur → cur ≠ previousAddress →
      fsUpdate fs id address previousAddress = (some SlotErr.conflict, fs)) ∧
    (∀ cur, slotGet fs.store id = some cur → cur = previousAddress →
      (fsUpdate fs id address previousAddress).1 = none ∧
      (fsUpdate fs id address previousAddress).2.store = slotSet fs.store id address ∧
      slotGet (fsUpdate fs id address previousAddress).2.store id = some address) := by
  refine ⟨?_, ?_, ?_, ?_, ?_, ?_⟩
  · intro h; simp [memUpdate, h]
  · intro cur h hne; simp [memUpdate, h, hne]
  · intro cur h heq
    subst heq
    refine ⟨by simp [memUpdate, h], ?_⟩
    simp [slotGet, slotSet]
  · intro h; simp [fsUpdate, h]
  · intro cur h hne; simp [fsUpdate, h, hne]
  · intro cur h heq
    subst heq
    refine ⟨by simp [fsUpdate, h], by simp [fsUpdate, h], ?_⟩
    simp [fsUpdate, h, slotGet, slotSet]

theorem C6_slot_update_cas_witness :
    memUpdate [("k", "v")] "k" "w" "x" = (some SlotErr.conflict, [("k", "v")]) :=
  (C6_slot_update_cas [("k", "v")] { store := [], journal := [] } "k" "w" "x").2.1
    "v" (by decide) (by decide)

/-! ### C8: the routing table -/

set_option maxRecDepth 4096 in
theorem byteBits_facts :
    ∀ x < 256, (x = 0 → leadingZeroBits (byteBits x) = 8) ∧
      (x ≠ 0 → firstSetBit x ≠ 8 ∧ firstSetBit x = leadingZeroBits (byteBits x) ∧
        leadingZeroBits (byteBits x) < 8) := by
  decide

theorem leadingZeroBits_append_allFalse {u v : List Bool} (h : ∀ b ∈ u, b = false) :
    leadingZeroBits (u ++ v) = u.length + leadingZeroBits v := by
  induction u with
  | nil => simp
  | cons b rest ih =>
      have hb : b = false := h b (by simp)
      subst hb
      have hr := ih (fun x hx => h x (by simp [hx]))
      show leadingZeroBits (false :: (rest ++ v)) = (false :: rest).length + leadingZeroBits v
      simp only [leadingZeroBits, if_neg (by simp : ¬ (false = true)), List.length_cons]
      omega

theorem leadingZeroBits_append_short {u v : List Bool} (h : leadingZeroBits u < u.length) :
    leadingZeroBits (u ++ v) = leadingZeroBits u := by
  induction u with
  | nil => simp at h
  | cons b rest ih =>
      cases b with
      | true => simp [leadingZeroBits]
      | false =>
          simp only [leadingZeroBits, if_neg (by simp : ¬ (false = true)),
            List.length_cons] at h
          have hr := ih (by omega)
          show leadingZeroBits (false :: (rest ++ v)) = leadingZeroBits (false :: rest)
          simp only [leadingZeroBits, if_neg (by simp : ¬ (false = true))]
          omega

theorem byteBits_zero_allFalse : ∀ b ∈ byteBits 0, b = false := by decide

/-- The byte loop of `PrefixLen` computes the number of leading zero bits
of the XOR of the two ids. -/
theorem prefixLenLoop_eq_leadingZeroBits :
    ∀ (a b : List Nat) (i : Nat), a.length = b.length →
      (∀ x ∈ a, x < 256) → (∀ x ∈ b, x < 256) →
      i * 8 + 8 * a.length = 256 →
      prefixLenLoop a b i = i * 8 + leadingZeroBits (idBits (nodeXOR a b)) := by
  intro a
  induction a with
  | nil =>
      intro b i hlen _ _ htot
      have hb : b = [] := by
        cases b with
        | nil => rfl
        | cons y ys => simp at hlen
      subst hb
      have h1 : prefixLenLoop [] [] i = IDLength * 8 := rfl
      have h2 : leadingZeroBits (idBits (nodeXOR [] [])) = 0 := rfl
      rw [h1, h2]
      simp only [List.length_nil, Nat.mul_zero, Nat.add_zero] at htot
      simp [IDLength]
      omega
  | cons x xs ih =>
      intro b i hlen hwa hwb htot
      cases b with
      | nil => simp at hlen
      | cons y ys =>
          have hx : x < 256 := hwa x (by simp)
          have hy : y < 256 := hwb y (by simp)
          have hxor : Nat.xor x y < 256 := Nat.xor_lt_two_pow (n := 8) hx hy
          have hfacts := byteBits_facts (Nat.xor x y) hxor
          have hstep : prefixLenLoop (x :: xs) (y :: ys) i =
              if Nat.xor x y ≠ 0 ∧ firstSetBit (Nat.xor x y) ≠ 8
              then i * 8 + firstSetBit (Nat.xor x y)
              else prefixLenLoop xs ys (i + 1) := rfl
          have hsplit : idBits (nodeXOR (x :: xs) (y :: ys)) =
              byteBits (Nat.xor x y) ++ idBits (nodeXOR xs ys) := rfl
          rw [hstep, hsplit]
          have hblen : (byteBits (Nat.xor x y)).length = 8 := by simp [byteBits]
          by_cases hz : Nat.xor x y = 0
          · have h8 : ∀ bb ∈ byteBits (Nat.xor x y), bb = false := by
              rw [hz]; exact byteBits_zero_allFalse
            rw [if_neg (by simp [hz])]
            have hrec := ih ys (i + 1) (by simpa using hlen)
              (fun z hzin => hwa z (by simp [hzin]))
              (fun z hzin => hwb z (by simp [hzin]))
              (by simp only [List.length_cons] at htot; omega)
            rw [hrec, leadingZeroBits_append_allFalse h8, hblen]
            ring
          · obtain ⟨hne8, heq, hlt⟩ := hfacts.2 hz
            rw [if_pos ⟨hz, hne8⟩]
            rw [leadingZeroBits_append_short (by omega)]
            omega

theorem removeFirst_length {l : List NodeID} {n : NodeID} (h : n ∈ l) :
    (removeFirst l n).length + 1 = l.length := by
  induction l with
  | nil => simp at h
  | cons x rest ih =>
      simp only [removeFirst]
      by_cases hx : x = n
      · simp [if_pos hx]
      · rw [if_neg hx]
        have hmem : n ∈ rest := by
          cases h with
          | head => exact absurd rfl hx
          | tail _ hr => exact hr
        simp only [List.length_cons]
        rw [← ih hmem]

theorem mem_removeFirst {l : List NodeID} {n a : NodeID} (h : a ∈ removeFirst l n) :
    a ∈ l := by
  induction l with
  | nil => simp [removeFirst] at h
  | cons x rest ih =>
      simp only [removeFirst] at h
      by_cases hx : x = n
      · rw [if_pos hx] at h
        exact List.mem_cons_of_mem x h
      · rw [if_neg hx] at h
        rcases List.mem_cons.1 h with heq | hr
        · rw [heq]; exact List.mem_cons_self x rest
        · exact List.mem_cons_of_mem x (ih hr)

/-- Table well-formedness: bucket capacity and the absence of self. -/
def TableOk (rt : RoutingTable) : Prop :=
  ∀ i, (rt.buckets i).length ≤ BucketSize ∧ rt.self ∉ rt.buckets i

theorem add_eq_self_mem (rt : RoutingTable) (node : NodeID) (h : node = rt.self) :
    rt.Add node = rt := by
  simp only [RoutingTable.Add, if_pos h]

theorem add_eq_fullBucket (rt : RoutingTable) (node : NodeID) (hne : node ≠ rt.self)
    (hidx : prefixLen rt.self node = IDLength * 8) :
    rt.Add node = rt := by
  simp only [RoutingTable.Add, if_neg hne, if_pos hidx]

/-- The new bucket contents chosen by `Add`. -/
def addBucket (bucket : List NodeID) (node : NodeID) : List NodeID :=
  if node ∈ bucket then removeFirst bucket node ++ [node]
  else if bucket.length < BucketSize then bucket ++ [node]
  else bucket.tail ++ [node]

/-- The table produced by a non-degenerate `Add`. -/
def addResult (rt : RoutingTable) (node : NodeID) : RoutingTable :=
  { rt with
    buckets := fun i =>
      if i = prefixLen rt.self node then addBucket (rt.buckets (prefixLen rt.self node)) node
      else rt.buckets i }

theorem add_eq_of_ne (rt : RoutingTable) (node : NodeID) (hne : node ≠ rt.self)
    (hidx : prefixLen rt.self node ≠ IDLength * 8) :
    rt.Add node = addResult rt node := by
  simp only [RoutingTable.Add, if_neg hne, if_neg hidx, addResult, addBucket]

theorem addBucket_length {bucket : List NodeID} {node : NodeID}
    (h : bucket.length ≤ BucketSize) : (addBucket bucket node).length ≤ BucketSize := by
  unfold addBucket
  by_cases hmem : node ∈ bucket
  · rw [if_pos hmem]
    have := removeFirst_length hmem
    rw [List.length_append]
    simp only [List.length_cons, List.length_nil]
    omega
  · rw [if_neg hmem]
    by_cases hroom : bucket.length < BucketSize
    · rw [if_pos hroom]
      rw [List.length_append]
      simp only [List.length_cons, List.length_nil]
      omega
    · rw [if_neg hroom]
      have htail : bucket.tail.length = bucket.length - 1 := List.length_tail bucket
      have hbs : BucketSize = 20 := rfl
      rw [List.length_append]
      simp only [List.length_cons, List.length_nil]
      omega

theorem addBucket_not_mem {bucket : List NodeID} {node a : NodeID}
    (hmem : a ∉ bucket) (hne : a ≠ node) : a ∉ addBucket bucket node := by
  unfold addBucket
  intro hin
  by_cases hm : node ∈ bucket
  · rw [if_pos hm] at hin
    rcases List.mem_append.1 hin with h1 | h2
    · exact hmem (mem_removeFirst h1)
    · simp at h2; exact hne h2
  · rw [if_neg hm] at hin
    by_cases hroom : bucket.length < BucketSize
    · rw [if_pos hroom] at hin
      rcases List.mem_append.1 hin with h1 | h2
      · exact hmem h1
      · simp at h2; exact hne h2
    · rw [if_neg hroom] at hin
      rcases List.mem_append.1 hin with h1 | h2
      · exact hmem (List.mem_of_mem_tail h1)
      · simp at h2; exact hne h2

theorem tableOk_add {rt : RoutingTable} (h : TableOk rt) (node : NodeID) :
    TableOk (rt.Add node) := by
  by_cases hself : node = rt.self
  · rw [add_eq_self_mem rt node hself]; exact h
  · by_cases hidx : prefixLen rt.self node = IDLength * 8
    · rw [add_eq_fullBucket rt node hself hidx]; exact h
    · rw [add_eq_of_ne rt node hself hidx]
      intro i
      show ((if i = prefixLen rt.self node
             then addBucket (rt.buckets (prefixLen rt.self node)) node
             else rt.buckets i).length ≤ BucketSize ∧
            rt.self ∉ (if i = prefixLen rt.self node
             then addBucket (rt.buckets (prefixLen rt.self node)) node
             else rt.buckets i))
      by_cases hi : i = prefixLen rt.self node
      · rw [if_pos hi]
        obtain ⟨hlen, hmemself⟩ := h (prefixLen rt.self node)
        exact ⟨addBucket_length hlen, addBucket_not_mem hmemself (fun he => hself he.symm)⟩
      · rw [if_neg hi]
        exact h i

theorem tableOk_addAll {rt : RoutingTable} (h : TableOk rt) (ns : List NodeID) :
    TableOk (addAll rt ns) := by
  induction ns generalizing rt with
  | nil => exact h
  | cons n rest ih => exact ih (tableOk_add h n)

/-- C8. `add(peer)` never inserts self; it places a peer into the bucket
indexed by the number of leading zero bits of `self XOR peer` (the source
`PrefixLen`), moving the peer to the bucket tail when already present and
evicting the head of a full bucket; consequently, after any sequence of
`add` operations starting from a fresh table, no bucket holds more than
`K = 20` ids and self is never in the table. -/
theorem C8_routing_table_add (self : NodeID) (ns : List NodeID) (rt : RoutingTable)
    (node : NodeID) :
    TableOk (addAll (NewRoutingTable self) ns) ∧
    (node ≠ rt.self → prefixLen rt.self node ≠ IDLength * 8 →
      (∀ j, j ≠ prefixLen rt.self node → (rt.Add node).buckets j = rt.buckets j) ∧
      (rt.Add node).buckets (prefixLen rt.self node) =
        addBucket (rt.buckets (prefixLen rt.self node)) node) ∧
    (node = rt.self → rt.Add node = rt) ∧
    (rt.self.length = 32 → node.length = 32 →
      (∀ x ∈ rt.self, x < 256) → (∀ x ∈ node, x < 256) →
      prefixLen rt.self node = leadingZeroBits (idBits (nodeXOR rt.self node))) := by
  refine ⟨tableOk_addAll ?_ ns, ?_, ?_, ?_⟩
  · intro i
    simp [NewRoutingTable, BucketSize]
  · intro hne hidx
    rw [add_eq_of_ne rt node hne hidx]
    constructor
    · intro j hj
      show (if j = prefixLen rt.self node
            then addBucket (rt.buckets (prefixLen rt.self node)) node
            else rt.buckets j) = rt.buckets j
      rw [if_neg hj]
    · show (if prefixLen rt.self node = prefixLen rt.self node
            then addBucket (rt.buckets (prefixLen rt.self node)) node
            else rt.buckets (prefixLen rt.self node)) =
          addBucket (rt.buckets (prefixLen rt.self node)) node
      rw [if_pos rfl]
  · intro h
    exact add_eq_self_mem rt node h
  · intro h32a h32b hwa hwb
    have := prefixLenLoop_eq_leadingZeroBits rt.self node 0 (by omega) hwa hwb (by omega)
    simpa [prefixLen] using this

theorem C8_routing_table_add_witness :
    prefixLen (List.replicate 32 0) (List.replicate 31 0 ++ [1]) =
      leadingZeroBits (idBits (nodeXOR (List.replicate 32 0) (List.replicate 31 0 ++ [1]))) ∧
    prefixLen (List.replicate 32 0) (List.replicate 31 0 ++ [1]) = 255 := by
  constructor
  · exact (C8_routing_table_add (List.replicate 32 0) [] (NewRoutingTable (List.replicate 32 0))
      (List.replicate 31 0 ++ [1])).2.2.2 (by decide) (by decide) (by decide) (by decide)
  · decide

/-! ### C3: DOS-reserved names are not rejected by CreateEntry -/

/-- Success test for an `Except` result. -/
def isOkE {α β : Type} (e : Except α β) : Bool :=
  match e with
  | Except.ok _ => true
  | Except.error _ => false

/-- Look up a child binding in the directory of a `CreateEntry` result. -/
def okChildLookup (r : Except String FilesState) (pid : Nat) (name : String) : Option Nat :=
  match r with
  | Except.ok s => childGet (((nodesGet s.nodes pid).getD {}).children) name
  | Except.error _ => none

/-- A files-level external record that never decodes a manifest (the
scenario below only touches directories that are already loaded). -/
def constFExt : FExt :=
  { jsonDecodeDirectory := fun _ => none }

/-- A writable configuration: a slot service is present and the root link
is a slot reference with an empty address (fresh empty root). -/
def writableFOpts : FOptions :=
  { slots := some [], rootLink := { address := "", slot := true }, writerOptions := {} }

/-- C3 (code bug).  `filetree.isValidName` classifies `"CON.txt"` as
invalid — the DOS check the specification describes — but
`InMemoryFiles.CreateEntry` never consults it: creating `"CON.txt"` under
the root of a fresh writable tree succeeds and binds the entry, instead
of failing with BadRequest. -/
theorem C3_create_reserved_name_not_rejected :
    isValidName "CON.txt" = false ∧
    isValidName "" = false ∧ isValidName "." = false ∧ isValidName ".." = false ∧
    isValidName "a/b" = false ∧ isValidName "lpt9" = false ∧
    isOkE (createEntry constExt constFExt writableFOpts 1 1 3 7 1 "CON.txt" "File" ""
      none none (initialFiles writableFOpts [] (fun _ => 0) 5)) = true ∧
    okChildLookup (createEntry constExt constFExt writableFOpts 1 1 3 7 1 "CON.txt" "File" ""
      none none (initialFiles writableFOpts [] (fun _ => 0) 5)) 1 "CON.txt" = some 2 := by
  refine ⟨by decide, by decide, by decide, by decide, by decide, by decide, ?_, ?_⟩
  · rfl
  · rfl

/-! ### C9: CBC encryption with PKCS#7 padding round-trips -/

set_option maxRecDepth 4096 in
theorem hexPairVal :
    ∀ b < 256, hexDigitVal (hexDigits.getD (b / 16) '0') = some (b / 16) ∧
      hexDigitVal (hexDigits.getD (b % 16) '0') = some (b % 16) := by
  decide

theorem hexDecodeChars_encodeByte {b : Nat} (hb : b < 256) {rest : List Char} {tl : Bytes}
    (hrest : hexDecodeChars rest = some tl) :
    hexDecodeChars (hexEncodeByte b ++ rest) = some (b :: tl) := by
  obtain ⟨h1, h2⟩ := hexPairVal b hb
  have hval : b / 16 * 16 + b % 16 = b := by omega
  cases rest with
  | nil =>
      simp only [hexDecodeChars] at hrest
      cases hrest
      show hexDecodeChars [hexDigits.getD (b / 16) '0', hexDigits.getD (b % 16) '0'] = some [b]
      simp only [hexDecodeChars, h1, h2, Option.bind, hval]
      simp [hval]
  | cons c cs =>
      show hexDecodeChars (hexDigits.getD (b / 16) '0' :: hexDigits.getD (b % 16) '0' ::
        (c :: cs)) = some (b :: tl)
      simp only [hexDecodeChars, h1, h2, hrest, Option.bind, hval]
      simp [hval]

theorem hexDecode_encode (bs : Bytes) (h : ∀ x ∈ bs, x < 256) :
    hexDecode (hexEncode bs) = some bs := by
  have key : ∀ l : Bytes, (∀ x ∈ l, x < 256) → hexDecodeChars (hexEncodeChars l) = some l := by
    intro l
    induction l with
    | nil => intro _; rfl
    | cons b rest ih =>
        intro hl
        have hb : b < 256 := hl b (by simp)
        have hr := ih (fun x hx => hl x (by simp [hx]))
        simpa [hexEncodeChars] using hexDecodeChars_encodeByte hb hr
  exact key bs h

theorem chunks16Go_fuel : ∀ f g bs, bs.length ≤ f → bs.length ≤ g →
    chunks16Go f bs = chunks16Go g bs := by
  intro f
  induction f with
  | zero =>
      intro g bs hf _
      have hb : bs = [] := List.eq_nil_of_length_eq_zero (by omega)
      subst hb
      cases g <;> rfl
  | succ f ih =>
      intro g bs hf hg
      cases bs with
      | nil => cases g <;> rfl
      | cons b rest =>
          cases g with
          | zero => simp at hg
          | succ g =>
              show ((b :: rest).take 16) :: chunks16Go f ((b :: rest).drop 16) =
                ((b :: rest).take 16) :: chunks16Go g ((b :: rest).drop 16)
              have hd : ((b :: rest).drop 16).length ≤ f := by
                simp only [List.length_drop, List.length_cons]
                simp only [List.length_cons] at hf
                omega
              have hd2 : ((b :: rest).drop 16).length ≤ g := by
                simp only [List.length_drop, List.length_cons]
                simp only [List.length_cons] at hg
                omega
              rw [ih _ _ hd hd2]

/-- The unfolding equation of `chunks16` on a nonempty list. -/
theorem chunks16_cons (b : Nat) (rest : Bytes) :
    chunks16 (b :: rest) = ((b :: rest).take 16) :: chunks16 ((b :: rest).drop 16) := by
  show chunks16Go (b :: rest).length (b :: rest) = _
  have h1 : (b :: rest).length = rest.length + 1 := rfl
  rw [h1]
  show ((b :: rest).take 16) :: chunks16Go rest.length ((b :: rest).drop 16) = _
  congr 1
  apply chunks16Go_fuel
  · simp only [List.length_drop, List.length_cons]
    omega
  · exact Nat.le_refl _

theorem concatBytes_chunks16 (data : Bytes) : concatBytes (chunks16 data) = data := by
  have H : ∀ n (d : Bytes), d.length ≤ n → concatBytes (chunks16 d) = d := by
    intro n
    induction n with
    | zero =>
        intro d hd
        have hb : d = [] := List.eq_nil_of_length_eq_zero (by omega)
        subst hb; rfl
    | succ n ih =>
        intro d hd
        cases d with
        | nil => rfl
        | cons b rest =>
            rw [chunks16_cons, concatBytes]
            have hlen : ((b :: rest).drop 16).length ≤ n := by
              simp only [List.length_drop, List.length_cons]
              simp only [List.length_cons] at hd
              omega
            rw [ih _ hlen]
            exact List.take_append_drop 16 (b :: rest)
  exact H data.length data (Nat.le_refl _)

theorem chunks16_all16 (data : Bytes) (hmod : data.length % 16 = 0) :
    ∀ b ∈ chunks16 data, b.length = 16 := by
  have H : ∀ n (d : Bytes), d.length ≤ n → d.length % 16 = 0 →
      ∀ b ∈ chunks16 d, b.length = 16 := by
    intro n
    induction n with
    | zero =>
        intro d hd _
        have hb : d = [] := List.eq_nil_of_length_eq_zero (by omega)
        subst hb
        intro b hb2
        simp [chunks16, chunks16Go] at hb2
    | succ n ih =>
        intro d hd hm
        cases d with
        | nil => intro b hb2; simp [chunks16, chunks16Go] at hb2
        | cons x rest =>
            intro b hb2
            rw [chunks16_cons] at hb2
            have hge : (x :: rest).length ≥ 16 := by
              rcases Nat.lt_or_ge (x :: rest).length 16 with hlt | hge2
              · have := Nat.mod_eq_of_lt hlt
                simp only [List.length_cons] at this hm
                omega
              · exact hge2
            rcases List.mem_cons.1 hb2 with heq | hmem
            · rw [heq, List.length_take]
              simp only [List.length_cons] at hge
              simp only [List.length_cons]
              omega
            · refine ih _ ?_ ?_ b hmem
              · simp only [List.length_drop, List.length_cons]
                simp only [List.length_cons] at hd
                omega
              · simp only [List.length_drop]
                omega
  exact H data.length data (Nat.le_refl _) hmod

theorem chunks16_concat (bs : List Bytes) (h : ∀ b ∈ bs, b.length = 16) :
    chunks16 (concatBytes bs) = bs := by
  induction bs with
  | nil => rfl
  | cons b rest ih =>
      have hb : b.length = 16 := h b (by simp)
      have hr := ih (fun x hx => h x (by simp [hx]))
      rw [concatBytes]
      cases hcase : b ++ concatBytes rest with
      | nil =>
          have hlen := congrArg List.length hcase
          rw [List.length_append] at hlen
          simp only [List.length_nil] at hlen
          omega
      | cons y ys =>
          rw [chunks16_cons, ← hcase]
          have ht : (b ++ concatBytes rest).take 16 = b := by
            rw [← hb]
            exact List.take_left b (concatBytes rest)
          have hd : (b ++ concatBytes rest).drop 16 = concatBytes rest := by
            rw [← hb]
            exact List.drop_left b (concatBytes rest)
          rw [ht, hd, hr]

theorem zipWith_xor_cancel (a b : Bytes) (h : a.length ≤ b.length) :
    List.zipWith Nat.xor (List.zipWith Nat.xor a b) b = a := by
  induction a generalizing b with
  | nil => simp
  | cons x xs ih =>
      cases b with
      | nil => simp at h
      | cons y ys =>
          simp only [List.zipWith, List.cons.injEq]
          exact ⟨Nat.xor_cancel_right y x, ih ys (by simp at h; omega)⟩

theorem cbcEncryptBlocks_all16 (E : Ext) (key : Bytes)
    (hLen : ∀ k b, (E.aesEncBlock k b).length = b.length) :
    ∀ (blocks : List Bytes) (prev : Bytes), (∀ b ∈ blocks, b.length = 16) →
      prev.length = 16 →
      ∀ c ∈ cbcEncryptBlocks E key prev blocks, c.length = 16 := by
  intro blocks
  induction blocks with
  | nil => intro prev _ _ c hc; simp [cbcEncryptBlocks] at hc
  | cons blk rest ih =>
      intro prev hall hprev c hc
      have hblk : blk.length = 16 := hall blk (by simp)
      have hclen : (E.aesEncBlock key (List.zipWith Nat.xor blk prev)).length = 16 := by
        simp [hLen, List.length_zipWith, hblk, hprev]
      simp only [cbcEncryptBlocks] at hc
      rcases List.mem_cons.1 hc with heq | hmem
      · rw [heq]; exact hclen
      · exact ih _ (fun b hb => hall b (by simp [hb])) hclen c hmem

theorem cbcDecryptBlocks_encryptBlocks (E : Ext) (key : Bytes)
    (hAES : ∀ k b, E.aesDecBlock k (E.aesEncBlock k b) = b)
    (hLen : ∀ k b, (E.aesEncBlock k b).length = b.length) :
    ∀ (blocks : List Bytes) (prev : Bytes), (∀ b ∈ blocks, b.length = 16) →
      prev.length = 16 →
      cbcDecryptBlocks E key prev (cbcEncryptBlocks E key prev blocks) = blocks := by
  intro blocks
  induction blocks with
  | nil => intro prev _ _; rfl
  | cons blk rest ih =>
      intro prev hall hprev
      have hblk : blk.length = 16 := hall blk (by simp)
      simp only [cbcEncryptBlocks, cbcDecryptBlocks, hAES, List.cons.injEq]
      refine ⟨zipWith_xor_cancel blk prev (by omega), ?_⟩
      apply ih
      · exact fun b hb => hall b (by simp [hb])
      · simp [hLen, List.length_zipWith, hblk, hprev]

theorem cbcDecrypt_cbcEncrypt (E : Ext) (key iv data : Bytes)
    (hAES : ∀ k b, E.aesDecBlock k (E.aesEncBlock k b) = b)
    (hLen : ∀ k b, (E.aesEncBlock k b).length = b.length)
    (hiv : iv.length = 16) (hmod : data.length % 16 = 0) :
    cbcDecrypt E key iv (cbcEncrypt E key iv data) = data := by
  unfold cbcEncrypt cbcDecrypt
  have hall := chunks16_all16 data hmod
  have hc16 := cbcEncryptBlocks_all16 E key hLen (chunks16 data) iv hall hiv
  rw [chunks16_concat _ hc16,
    cbcDecryptBlocks_encryptBlocks E key hAES hLen (chunks16 data) iv hall hiv,
    concatBytes_chunks16]

theorem cbcEncrypt_length (E : Ext) (key iv data : Bytes)
    (hLen : ∀ k b, (E.aesEncBlock k b).length = b.length)
    (hiv : iv.length = 16) (hmod : data.length % 16 = 0) :
    (cbcEncrypt E key iv data).length = data.length := by
  have step : ∀ (bs : List Bytes), (∀ b ∈ bs, b.length = 16) →
      (concatBytes bs).length = 16 * bs.length := by
    intro bs
    induction bs with
    | nil => intro _; rfl
    | cons b rest ih =>
        intro hall
        rw [concatBytes, List.length_append, hall b (by simp),
          ih (fun x hx => hall x (by simp [hx]))]
        simp [List.length_cons]
        ring
  have hcountEnc : ∀ (blocks : List Bytes) (prev : Bytes),
      (cbcEncryptBlocks E key prev blocks).length = blocks.length := by
    intro blocks
    induction blocks with
    | nil => intro _; rfl
    | cons blk rest ih => intro prev; simp [cbcEncryptBlocks, ih]
  unfold cbcEncrypt
  rw [step _ (cbcEncryptBlocks_all16 E key hLen (chunks16 data) iv
        (chunks16_all16 data hmod) hiv), hcountEnc]
  have hchunks : 16 * (chunks16 data).length = (concatBytes (chunks16 data)).length := by
    rw [step _ (chunks16_all16 data hmod)]
  rw [hchunks, concatBytes_chunks16]

theorem pkcs7pad_spec (data : Bytes) :
    16 - data.length % 16 ≠ 0 ∧
    1 ≤ 16 - data.length % 16 ∧ 16 - data.length % 16 ≤ 16 ∧
    pkcs7pad data =
      data ++ List.replicate (16 - data.length % 16) (16 - data.length % 16) ∧
    (pkcs7pad data).length % 16 = 0 ∧
    (pkcs7pad data).length = data.length + (16 - data.length % 16) := by
  have hlt : data.length % 16 < 16 := Nat.mod_lt _ (by norm_num)
  have hne : 16 - data.length % 16 ≠ 0 := by omega
  refine ⟨hne, by omega, by omega, ?_, ?_, ?_⟩
  · simp only [pkcs7pad]
    rw [if_neg hne]
  · simp only [pkcs7pad]
    rw [if_neg hne, List.length_append, List.length_replicate]
    omega
  · simp only [pkcs7pad]
    rw [if_neg hne, List.length_append, List.length_replicate]

/-- The reader's `Decipher` transform inverts the writer's pad-and-CBC
pipeline: shared computation behind the C9 and C1 theorems. -/
theorem applyTransform_decipher_ok (E : Ext)
    (rc : ContentLink → Except String Bytes) (key iv data : Bytes)
    (hAES : ∀ k b, E.aesDecBlock k (E.aesEncBlock k b) = b)
    (hLen : ∀ k b, (E.aesEncBlock k b).length = b.length)
    (hkey : key.length = 16 ∨ key.length = 24 ∨ key.length = 32)
    (hkeyB : ∀ x ∈ key, x < 256)
    (hiv : iv.length = 16) (hivB : ∀ x ∈ iv, x < 256) :
    applyTransform E rc
      { kind := "Decipher", algorithm := "aes-256-cbc",
        key := hexEncode key, iv := hexEncode iv }
      (cbcEncrypt E key iv (pkcs7pad data)) = Except.ok data := by
  obtain ⟨hne, h1, h16, hpad, hmod, hplen⟩ := pkcs7pad_spec data
  have hclen : (cbcEncrypt E key iv (pkcs7pad data)).length = (pkcs7pad data).length :=
    cbcEncrypt_length E key iv (pkcs7pad data) hLen hiv hmod
  have hdec : cbcDecrypt E key iv (cbcEncrypt E key iv (pkcs7pad data)) = pkcs7pad data :=
    cbcDecrypt_cbcEncrypt E key iv (pkcs7pad data) hAES hLen hiv hmod
  have hppos : 0 < (pkcs7pad data).length := by omega
  unfold applyTransform
  simp +decide only [hexDecode_encode key hkeyB, hexDecode_encode iv hivB]
  rw [if_pos hkey]
  rw [if_neg (by omega : ¬ ((cbcEncrypt E key iv (pkcs7pad data)).length = 0 ∨
    (cbcEncrypt E key iv (pkcs7pad data)).length % 16 ≠ 0))]
  rw [hdec, hplen, hpad]
  have hgetD : (data ++ List.replicate (16 - data.length % 16) (16 - data.length % 16)).getD
      (data.length + (16 - data.length % 16) - 1) 0 = 16 - data.length % 16 := by
    rw [List.getD_append_right data _ 0 _ (by omega)]
    have hidx : data.length + (16 - data.length % 16) - 1 - data.length =
        (16 - data.length % 16) - 1 := by omega
    rw [hidx, List.getD_eq_getElem _ _ (by rw [List.length_replicate]; omega),
      List.getElem_replicate]
  rw [hgetD]
  rw [if_neg (by omega : ¬ (16 - data.length % 16 > 16 ∨ 16 - data.length % 16 = 0))]
  have hdrop : (data ++ List.replicate (16 - data.length % 16) (16 - data.length % 16)).drop
      (data.length + (16 - data.length % 16) - (16 - data.length % 16)) =
      List.replicate (16 - data.length % 16) (16 - data.length % 16) := by
    have hidx : data.length + (16 - data.length % 16) - (16 - data.length % 16) =
        data.length := by omega
    rw [hidx]
    exact List.drop_left data _
  rw [hdrop]
  have hall : (List.replicate (16 - data.length % 16) (16 - data.length % 16)).all
      (fun x => x == 16 - data.length % 16) = true := by
    simp [List.all_eq_true, List.mem_replicate]
  rw [if_pos hall]
  have htake : (data ++ List.replicate (16 - data.length % 16) (16 - data.length % 16)).take
      (data.length + (16 - data.length % 16) - (16 - data.length % 16)) = data := by
    have hidx : data.length + (16 - data.length % 16) - (16 - data.length % 16) =
        data.length := by omega
    rw [hidx]
    exact List.take_left data _
  rw [htake]
  simp

/-- C9.  The writer's PKCS#7 padding always appends between 1 and 16
bytes — `16 - len % 16` is never zero, so the `padLen == 0` branch of
`writeBlock` is dead — and the reader's `Decipher` transform, applied to
the writer's CBC ciphertext with the same key and IV, passes the padding
checks and returns exactly the pre-encryption bytes.  The hypotheses are
the contracts of Go's AES block cipher: deciphering inverts enciphering
and a cipher block keeps its length. -/
theorem C9_decipher_inverts_writer_encryption (E : Ext)
    (rc : ContentLink → Except String Bytes) (key iv data : Bytes)
    (hAES : ∀ k b, E.aesDecBlock k (E.aesEncBlock k b) = b)
    (hLen : ∀ k b, (E.aesEncBlock k b).length = b.length)
    (hkey : key.length = 16 ∨ key.length = 24 ∨ key.length = 32)
    (hkeyB : ∀ x ∈ key, x < 256)
    (hiv : iv.length = 16) (hivB : ∀ x ∈ iv, x < 256) :
    16 - data.length % 16 ≠ 0 ∧
    1 ≤ 16 - data.length % 16 ∧ 16 - data.length % 16 ≤ 16 ∧
    applyTransform E rc
      { kind := "Decipher", algorithm := "aes-256-cbc",
        key := hexEncode key, iv := hexEncode iv }
      (cbcEncrypt E key iv (pkcs7pad data)) = Except.ok data := by
  obtain ⟨hne, h1, h16, hpad, hmod, hplen⟩ := pkcs7pad_spec data
  exact ⟨hne, h1, h16,
    applyTransform_decipher_ok E rc key iv data hAES hLen hkey hkeyB hiv hivB⟩

theorem C9_decipher_inverts_writer_encryption_witness :
    applyTransform constExt (fun _ => Except.error "")
      { kind := "Decipher", algorithm := "aes-256-cbc",
        key := hexEncode (List.replicate 32 7), iv := hexEncode (List.replicate 16 9) }
      (cbcEncrypt constExt (List.replicate 32 7) (List.replicate 16 9) (pkcs7pad [1, 2, 3])) =
      Except.ok [1, 2, 3] :=
  (C9_decipher_inverts_writer_encryption constExt (fun _ => Except.error "")
    (List.replicate 32 7) (List.replicate 16 9) [1, 2, 3]
    (fun _ _ => rfl) (fun _ _ => rfl) (by decide) (by decide) (by decide) (by decide)).2.2.2

/-! ### C4: chunk boundaries of the writer -/

/-- The BuzHash state after feeding a chunk into a fresh 64-byte-window
hash (the writer resets the hash at each boundary). -/
def buzFold (chunk : Bytes) : BuzHash :=
  chunk.foldl (fun bh c => (bh.WriteB c).2) (NewBuzHash 64)

/-- The 32-bit rolling hash value after a chunk. -/
def buzRun (chunk : Bytes) : Nat :=
  (buzFold chunk).hash

/-- The specification's split condition at the end of a prospective chunk
`pre`: the low 20 bits of the rolling hash vanish on a chunk of at least
512 KiB, or the chunk has reached the 2 MiB hard ceiling.  (The final
byte of the stream closes the last chunk unconditionally.) -/
def splitCond (pre : Bytes) : Prop :=
  (buzRun pre &&& buzMask = 0 ∧ pre.length ≥ targetBlockSize / 2) ∨
  pre.length = maxBlockSize

/-- Greedy boundary characterization: each chunk (here with an
already-scanned prefix `curr`) ends at the first offset satisfying the
split condition, except the last chunk which is closed by the end of the
stream; interior offsets never satisfy the condition. -/
def ChunksSpecAux : Bytes → List Bytes → Prop
  | curr, [] => curr = []
  | curr, c :: out2 =>
      c.take curr.length = curr ∧ curr.length < c.length ∧
      (∀ k, curr.length < k → k < c.length → ¬ splitCond (c.take k)) ∧
      (out2 ≠ [] → splitCond c) ∧
      ChunksSpecAux [] out2

theorem buzFold_append (curr : Bytes) (c : Nat) :
    buzFold (curr ++ [c]) = ((buzFold curr).WriteB c).2 := by
  unfold buzFold
  rw [List.foldl_append]
  rfl

theorem buzWriteB_fst (b : BuzHash) (c : Nat) :
    (b.WriteB c).1 = ((b.WriteB c).2).hash := rfl

theorem take_prefix_shrink {c1 pre : Bytes} (hpre : c1.take pre.length = pre) {k : Nat}
    (hk : k ≤ pre.length) : c1.take k = pre.take k := by
  rw [← hpre, List.take_take, Nat.min_eq_left hk]

theorem splitCond_append_iff (curr : Bytes) (c : Nat) :
    splitCond (curr ++ [c]) ↔
      ((buzRun (curr ++ [c]) &&& buzMask = 0 ∧ curr.length + 1 ≥ targetBlockSize / 2) ∨
       curr.length + 1 = maxBlockSize) := by
  unfold splitCond
  simp [List.length_append]

theorem chunksSpecAux_weaken {curr : Bytes} {c : Nat} {out : List Bytes}
    (h : ChunksSpecAux (curr ++ [c]) out) (hnc : ¬ splitCond (curr ++ [c])) :
    ChunksSpecAux curr out := by
  cases out with
  | nil =>
      exfalso
      have hcon : curr ++ [c] = [] := h
      simpa using congrArg List.length hcon
  | cons c1 out2 =>
      obtain ⟨hpre, hlt, hmin, hcond, hrec⟩ := h
      have hlen1 : (curr ++ [c]).length = curr.length + 1 := by simp
      refine ⟨?_, by omega, ?_, hcond, hrec⟩
      · have h1 : c1.take curr.length = (curr ++ [c]).take curr.length :=
          take_prefix_shrink hpre (by omega)
        rw [h1, List.take_append_of_le_length (Nat.le_refl _), List.take_length]
      · intro k hk1 hk2
        by_cases hke : k = curr.length + 1
        · have hck : c1.take k = curr ++ [c] := by
            rw [hke, ← hlen1, hpre]
          rw [hck]
          exact hnc
        · exact hmin k (by omega) hk2

theorem splitChunksLoop_spec :
    ∀ (rest curr : Bytes) (acc : List Bytes),
      (∀ k, 1 ≤ k → k ≤ curr.length → ¬ splitCond (curr.take k)) →
      (rest = [] → curr = []) →
      ∃ out, splitChunksLoop rest (buzFold curr) curr acc = acc ++ out ∧
        concatBytes out = curr ++ rest ∧ ChunksSpecAux curr out := by
  intro rest
  induction rest with
  | nil =>
      intro curr acc _ hend
      refine ⟨[], ?_, ?_, ?_⟩
      · simp [splitChunksLoop]
      · rw [hend rfl]; rfl
      · simp [ChunksSpecAux, hend rfl]
  | cons c rest2 ih =>
      intro curr acc hcur _
      have hW : (buzFold curr).WriteB c = (buzRun (curr ++ [c]), buzFold (curr ++ [c])) := by
        have h2 : ((buzFold curr).WriteB c).2 = buzFold (curr ++ [c]) :=
          (buzFold_append curr c).symm
        have h1 : ((buzFold curr).WriteB c).1 = buzRun (curr ++ [c]) := by
          rw [buzWriteB_fst, h2]; rfl
        rw [← h1, ← h2]
      show (∃ out, _ ∧ _ ∧ _)
      rw [splitChunksLoop, hW]
      simp only
      by_cases hb : (buzRun (curr ++ [c]) &&& buzMask = 0 ∧
          curr.length + 1 ≥ targetBlockSize / 2) ∨ curr.length + 1 = maxBlockSize ∨ rest2 = []
      · rw [if_pos hb]
        obtain ⟨out2, heq, hconcat, hspec⟩ := ih [] (acc ++ [curr ++ [c]])
          (by intro k hk1 hk2; simp at hk2; omega) (fun _ => rfl)
        have hfold0 : buzFold ([] : Bytes) = NewBuzHash 64 := rfl
        rw [hfold0] at heq
        refine ⟨(curr ++ [c]) :: out2, ?_, ?_, ?_⟩
        · rw [heq, List.append_assoc]
          rfl
        · simp only [concatBytes, hconcat]
          simp
        · have hsplitlen : (curr ++ [c]).length = curr.length + 1 := by simp
          refine ⟨?_, by omega, ?_, ?_, hspec⟩
          · rw [List.take_append_of_le_length (Nat.le_refl _), List.take_length]
          · intro k hk1 hk2
            omega
          · intro hne
            have hr2 : rest2 ≠ [] := by
              intro hr
              subst hr
              simp only [List.nil_append] at hconcat
              cases out2 with
              | nil => exact hne rfl
              | cons o os =>
                  simp only [ChunksSpecAux] at hspec
                  obtain ⟨_, holt, _, _, _⟩ := hspec
                  have hlen0 := congrArg List.length hconcat
                  simp only [concatBytes, List.length_append, List.length_nil] at hlen0
                  simp only [List.length_nil] at holt
                  omega
            rw [splitCond_append_iff]
            rcases hb with hb1 | hb2 | hb3
            · exact Or.inl hb1
            · exact Or.inr hb2
            · exact absurd hb3 hr2
      · rw [if_neg hb]
        have hnAB : ¬ (buzRun (curr ++ [c]) &&& buzMask = 0 ∧
            curr.length + 1 ≥ targetBlockSize / 2) := fun hx => hb (Or.inl hx)
        have hnm : curr.length + 1 ≠ maxBlockSize := fun hx => hb (Or.inr (Or.inl hx))
        have hr2 : rest2 ≠ [] := fun hx => hb (Or.inr (Or.inr hx))
        have hncond : ¬ splitCond (curr ++ [c]) := by
          rw [splitCond_append_iff]
          intro hsc
          rcases hsc with h1 | h2
          · exact hnAB h1
          · exact hnm h2
        have hcur2 : ∀ k, 1 ≤ k → k ≤ (curr ++ [c]).length →
            ¬ splitCond ((curr ++ [c]).take k) := by
          intro k hk1 hk2
          simp only [List.length_append, List.length_cons, List.length_nil] at hk2
          by_cases hke : k = curr.length + 1
          · have hck : (curr ++ [c]).take k = curr ++ [c] := by
              rw [hke, List.take_of_length_le (by simp)]
            rw [hck]
            exact hncond
          · rw [List.take_append_of_le_length (by omega)]
            exact hcur k hk1 (by omega)
        obtain ⟨out, heq, hconcat, hspec⟩ := ih (curr ++ [c]) acc hcur2
          (fun hrr => absurd hrr hr2)
        refine ⟨out, heq, ?_, ?_⟩
        · rw [hconcat]
          simp
        · exact chunksSpecAux_weaken hspec hncond

/-- The split characterization of `splitChunks`. -/
theorem splitChunks_spec (data : Bytes) :
    concatBytes (splitChunks data) = data ∧ ChunksSpecAux [] (splitChunks data) := by
  obtain ⟨out, heq, hconcat, hspec⟩ := splitChunksLoop_spec data [] []
    (by intro k hk1 hk2; simp at hk2; omega) (fun _ => rfl)
  have hfold0 : buzFold ([] : Bytes) = NewBuzHash 64 := rfl
  rw [hfold0] at heq
  unfold splitChunks
  rw [heq]
  simpa using ⟨hconcat, hspec⟩

/-- Writing a list of already-determined chunks in order (the effect of
the `splitBlocks` loop, separated from boundary discovery). -/
def writeChunks (E : Ext) (opts : WriterOptions) (sharedKey : Option Bytes) :
    List Bytes → WState → Except String (List BlockListItem × WState)
  | [], s => Except.ok ([], s)
  | c :: cs, s =>
      match writeBlock E c opts sharedKey s with
      | Except.error e => Except.error e
      | Except.ok (link, s2) =>
          match writeChunks E opts sharedKey cs s2 with
          | Except.error e => Except.error e
          | Except.ok (items, s3) =>
              Except.ok ({ content := link, size := c.length } :: items, s3)

theorem splitChunksLoop_acc : ∀ (rest : Bytes) (bh : BuzHash) (curr : Bytes)
    (acc : List Bytes),
    splitChunksLoop rest bh curr acc = acc ++ splitChunksLoop rest bh curr [] := by
  intro rest
  induction rest with
  | nil => intro bh curr acc; simp [splitChunksLoop]
  | cons c rest2 ih =>
      intro bh curr acc
      rw [splitChunksLoop, splitChunksLoop]
      simp only
      by_cases hb : ((bh.WriteB c).1 &&& buzMask = 0 ∧
          curr.length + 1 ≥ targetBlockSize / 2) ∨ curr.length + 1 = maxBlockSize ∨ rest2 = []
      · rw [if_pos hb, if_pos hb]
        simp only [List.nil_append]
        rw [ih _ _ (acc ++ [curr ++ [c]]), ih _ _ [curr ++ [c]]]
        simp
      · rw [if_neg hb, if_neg hb]
        exact ih _ _ acc

theorem splitLoop_writeChunks (E : Ext) (opts : WriterOptions) (sharedKey : Option Bytes) :
    ∀ (rest : Bytes) (bh : BuzHash) (curr : Bytes) (blocks : List BlockListItem) (s : WState),
    splitLoop E opts sharedKey rest bh curr blocks s =
      match writeChunks E opts sharedKey (splitChunksLoop rest bh curr []) s with
      | Except.error e => Except.error e
      | Except.ok (items, s2) => Except.ok (blocks ++ items, s2) := by
  intro rest
  induction rest with
  | nil =>
      intro bh curr blocks s
      simp [splitLoop, splitChunksLoop, writeChunks]
  | cons c rest2 ih =>
      intro bh curr blocks s
      rw [splitLoop, splitChunksLoop]
      simp only
      by_cases hb : ((bh.WriteB c).1 &&& buzMask = 0 ∧
          curr.length + 1 ≥ targetBlockSize / 2) ∨ curr.length + 1 = maxBlockSize ∨ rest2 = []
      · rw [if_pos hb, if_pos hb]
        simp only [List.nil_append]
        rw [splitChunksLoop_acc rest2 (NewBuzHash 64) [] [curr ++ [c]]]
        cases hwb : writeBlock E (curr ++ [c]) opts sharedKey s with
        | error e => simp [writeChunks, hwb]
        | ok ls =>
            obtain ⟨link, s2⟩ := ls
            show splitLoop E opts sharedKey rest2 (NewBuzHash 64) []
              (blocks ++ [{ content := link, size := (curr ++ [c]).length }]) s2 = _
            rw [ih]
            simp only [writeChunks, hwb]
            cases hwc : writeChunks E opts sharedKey
                (splitChunksLoop rest2 (NewBuzHash 64) [] []) s2 with
            | error e => simp [hwc]
            | ok is3 =>
                obtain ⟨items, s3⟩ := is3
                simp [hwc]
      · rw [if_neg hb, if_neg hb]
        exact ih _ _ blocks s

theorem splitBlocks_writeChunks (E : Ext) (data : Bytes) (opts : WriterOptions)
    (sharedKey : Option Bytes) (s : WState) :
    splitBlocks E data opts sharedKey s =
      match writeChunks E opts sharedKey (splitChunks data) s with
      | Except.error e => Except.error e
      | Except.ok (items, s2) => Except.ok (items, s2) := by
  unfold splitBlocks splitChunks
  rw [splitLoop_writeChunks]
  cases writeChunks E opts sharedKey (splitChunksLoop data (NewBuzHash 64) [] []) s with
  | error e => rfl
  | ok is2 => obtain ⟨items, s2⟩ := is2; simp

theorem writeChunks_sizes (E : Ext) (opts : WriterOptions) (sharedKey : Option Bytes) :
    ∀ (cs : List Bytes) (s : WState) (items : List BlockListItem) (s2 : WState),
    writeChunks E opts sharedKey cs s = Except.ok (items, s2) →
    items.map (fun it => it.size) = cs.map List.length := by
  intro cs
  induction cs with
  | nil =>
      intro s items s2 h
      simp only [writeChunks, Except.ok.injEq, Prod.mk.injEq] at h
      rw [← h.1]
      rfl
  | cons c rest ih =>
      intro s items s2 h
      simp only [writeChunks] at h
      cases hwb : writeBlock E c opts sharedKey s with
      | error e => simp [hwb] at h
      | ok ls =>
          obtain ⟨link, sB⟩ := ls
          simp only [hwb] at h
          cases hwc : writeChunks E opts sharedKey rest sB with
          | error e => simp [hwc] at h
          | ok is3 =>
              obtain ⟨items2, s3⟩ := is3
              simp only [hwc, Except.ok.injEq, Prod.mk.injEq] at h
              rw [← h.1, List.map_cons, List.map_cons, ih sB items2 s3 hwc]

theorem writeBlock_no_blocks_transform (E : Ext) (data : Bytes) (opts : WriterOptions)
    (sharedKey : Option Bytes) (s : WState) :
    ∀ link s2, writeBlock E data opts sharedKey s = Except.ok (link, s2) →
      ∀ t ∈ link.transforms, t.kind = "Decipher" ∨ t.kind = "Decompress" := by
  intro link s2 hwb t ht
  unfold writeBlock at hwb
  repeat' split at hwb
  all_goals (try (unfold writeBlockAes at hwb))
  all_goals (try (repeat' split at hwb))
  all_goals (try cases hwb)
  all_goals simp_all [List.mem_cons]
  all_goals (rcases ht with rfl | rfl <;> simp)

/-- C4.  A plaintext of at most 1 MiB becomes a single block: `Write`
reduces to one `writeBlock`, whose transforms never include `Blocks`.  A
longer plaintext is split at exactly the offsets where the rolling hash
makes the split condition true (low 20 bits zero on a chunk of at least
512 KiB, or the 2 MiB ceiling), each chunk ending at the first such
offset, the last chunk closed by the end of the stream; the boundaries
are a pure function `splitChunks` of the byte sequence alone, and the
sizes recorded by the stateful `splitBlocks` agree with it. -/
theorem C4_chunk_boundaries (E : Ext) (fuel : Nat) (data : Bytes) (opts : WriterOptions)
    (sharedKey : Option Bytes) (s : WState) :
    (data.length = 0 → write E fuel data opts s = writeBlock E [] opts none s) ∧
    (0 < data.length → data.length ≤ targetBlockSize →
      write E fuel data opts s = writeBlock E data opts none s) ∧
    (∀ link s2, writeBlock E data opts sharedKey s = Except.ok (link, s2) →
      ∀ t ∈ link.transforms, t.kind ≠ "Blocks") ∧
    concatBytes (splitChunks data) = data ∧
    ChunksSpecAux [] (splitChunks data) ∧
    (∀ items s2, splitBlocks E data opts sharedKey s = Except.ok (items, s2) →
      items.map (fun it => it.size) = (splitChunks data).map List.length) := by
  refine ⟨?_, ?_, ?_, (splitChunks_spec data).1, (splitChunks_spec data).2, ?_⟩
  · intro h0
    unfold write
    rw [if_pos h0]
  · intro hpos hle
    unfold write
    rw [if_neg (by omega), if_pos hle]
  · intro link s2 hwb t ht
    rcases writeBlock_no_blocks_transform E data opts sharedKey s link s2 hwb t ht with h | h <;>
      simp [h]
  · intro items s2 hsb
    rw [splitBlocks_writeChunks] at hsb
    cases hwc : writeChunks E opts sharedKey (splitChunks data) s with
    | error e => rw [hwc] at hsb; cases hsb
    | ok is2 =>
        obtain ⟨items2, s3⟩ := is2
        rw [hwc] at hsb
        simp only [Except.ok.injEq, Prod.mk.injEq] at hsb
        rw [← hsb.1]
        exact writeChunks_sizes E opts sharedKey (splitChunks data) s items2 s3 hwc

theorem C4_chunk_boundaries_witness :
    write constExt 1 [1, 2, 3] {} { store := [], rnd := fun _ => 0, pos := 0 } =
      writeBlock constExt [1, 2, 3] {} none { store := [], rnd := fun _ => 0, pos := 0 } ∧
    concatBytes (splitChunks [1, 2, 3]) = [1, 2, 3] :=
  ⟨(C4_chunk_boundaries constExt 1 [1, 2, 3] {} none
      { store := [], rnd := fun _ => 0, pos := 0 }).2.1 (by decide) (by decide),
   (C4_chunk_boundaries constExt 1 [1, 2, 3] {} none
      { store := [], rnd := fun _ => 0, pos := 0 }).2.2.2.1⟩

/-! ### C1 infrastructure: store discipline and reader stability

The writer only prepends to the blob store, so every intermediate store
is a suffix of the final one.  Under the (physically inevitable)
assumption that the final store carries no SHA-256 collision — no two
entries share an address with different bytes — blob lookups made
against an intermediate store survive into every later store. -/

/-- No two entries of the store bind one address to different bytes. -/
def StoreConsistent (st : BlobStore) : Prop :=
  ∀ p ∈ st, ∀ q ∈ st, p.1 = q.1 → p.2 = q.2

/-- Boolean form of `StoreConsistent`, for concrete evaluation. -/
def storeConsistentB (st : BlobStore) : Bool :=
  st.all (fun p => st.all (fun q => !(p.1 == q.1) || p.2 == q.2))

theorem storeConsistentB_iff (st : BlobStore) :
    storeConsistentB st = true ↔ StoreConsistent st := by
  unfold storeConsistentB StoreConsistent
  simp only [List.all_eq_true, Bool.or_eq_true, Bool.not_eq_true', beq_eq_false_iff_ne,
    beq_iff_eq]
  constructor
  · intro h p hp q hq heq
    rcases h p hp q hq with h1 | h2
    · exact absurd heq h1
    · exact h2
  · intro h p hp q hq
    by_cases he : p.1 = q.1
    · exact Or.inr (h p hp q hq he)
    · exact Or.inl he

theorem storeGet_mem {st : BlobStore} {a : String} {d : Bytes}
    (h : storeGet st a = some d) : (a, d) ∈ st := by
  induction st with
  | nil => simp [storeGet] at h
  | cons p rest ih =>
      obtain ⟨a0, d0⟩ := p
      simp only [storeGet] at h
      by_cases he : a0 = a
      · rw [if_pos he] at h
        cases h
        rw [he]
        exact List.mem_cons_self _ _
      · rw [if_neg he] at h
        exact List.mem_cons_of_mem _ (ih h)

theorem storeGet_isSome_of_mem {st : BlobStore} {a : String} {d : Bytes}
    (h : (a, d) ∈ st) : ∃ d2, storeGet st a = some d2 ∧ (a, d2) ∈ st := by
  induction st with
  | nil => simp at h
  | cons p rest ih =>
      obtain ⟨a0, d0⟩ := p
      simp only [storeGet]
      by_cases he : a0 = a
      · subst he
        exact ⟨d0, by rw [if_pos rfl], List.mem_cons_self _ _⟩
      · rw [if_neg he]
        rcases List.mem_cons.1 h with heq | hmem
        · cases heq; exact absurd rfl he
        · obtain ⟨d2, hget, hmem2⟩ := ih hmem
          exact ⟨d2, hget, List.mem_cons_of_mem _ hmem2⟩

/-- A lookup made in an earlier (suffix) store survives into a later
consistent store. -/
theorem storeGet_stable {st1 st2 : BlobStore} (hsuf : List.IsSuffix st1 st2)
    (hcons : StoreConsistent st2) {a : String} {d : Bytes}
    (h : storeGet st1 a = some d) : storeGet st2 a = some d := by
  have hmem1 : (a, d) ∈ st1 := storeGet_mem h
  have hmem2 : (a, d) ∈ st2 := hsuf.subset hmem1
  obtain ⟨d2, hget, hmem3⟩ := storeGet_isSome_of_mem hmem2
  have : d = d2 := hcons (a, d) hmem2 (a, d2) hmem3 rfl
  rw [hget, this]

/-- Ok-results of `readConcat` are preserved when the child reader is
replaced by one that preserves ok-results. -/
theorem readConcat_mono {rc1 rc2 : ContentLink → Except String Bytes}
    (hrc : ∀ l r, rc1 l = Except.ok r → rc2 l = Except.ok r) :
    ∀ (bl : List BlockListItem) (r : Bytes),
      readConcat rc1 bl = Except.ok r → readConcat rc2 bl = Except.ok r := by
  intro bl
  induction bl with
  | nil => intro r h; exact h
  | cons item rest ih =>
      intro r h
      simp only [readConcat] at h ⊢
      cases hc : rc1 item.content with
      | error e => simp [hc] at h
      | ok d =>
          simp only [hc] at h
          rw [hrc item.content d hc]
          cases hr : readConcat rc1 rest with
          | error e => simp [hr] at h
          | ok ds =>
              simp only [hr] at h
              rw [ih ds hr]
              exact h

/-- Ok-results of `applyTransform` are preserved when the child reader is
replaced by one that preserves ok-results. -/
theorem applyTransform_mono (E : Ext) {rc1 rc2 : ContentLink → Except String Bytes}
    (hrc : ∀ l r, rc1 l = Except.ok r → rc2 l = Except.ok r)
    (t : ContentTransform) (data : Bytes) {r : Bytes}
    (h : applyTransform E rc1 t data = Except.ok r) :
    applyTransform E rc2 t data = Except.ok r := by
  unfold applyTransform at h ⊢
  by_cases h1 : t.kind = "Decompress"
  · rw [if_pos h1] at h ⊢
    exact h
  · rw [if_neg h1] at h ⊢
    by_cases h2 : t.kind = "Decipher"
    · rw [if_pos h2] at h ⊢
      exact h
    · rw [if_neg h2] at h ⊢
      by_cases h3 : t.kind = "Blocks"
      · rw [if_pos h3] at h ⊢
        cases hbl : E.jsonDecodeBlockList data with
        | none => simp [hbl] at h
        | some bl =>
            simp only [hbl] at h ⊢
            exact readConcat_mono hrc bl r h
      · rw [if_neg h3] at h ⊢
        exact h

/-- Ok-results of the transform fold are preserved when the child reader
is replaced by one that preserves ok-results. -/
theorem readTransforms_mono (E : Ext) {rc1 rc2 : ContentLink → Except String Bytes}
    (hrc : ∀ l r, rc1 l = Except.ok r → rc2 l = Except.ok r) :
    ∀ (ts : List ContentTransform) (data r : Bytes),
      readTransforms E rc1 ts data = Except.ok r → readTransforms E rc2 ts data = Except.ok r := by
  intro ts
  induction ts with
  | nil => intro data r h; exact h
  | cons t rest ih =>
      intro data r h
      simp only [readTransforms] at h ⊢
      cases ha : applyTransform E rc1 t data with
      | error e => simp [ha] at h
      | ok d =>
          simp only [ha] at h
          simp only [applyTransform_mono E hrc t data ha]
          exact ih d r h

/-- Ok-results of `read` are stable under more fuel and a larger (but
consistent) store. -/
theorem read_mono (E : Ext) (slots : Option SlotMap) :
    ∀ (f1 f2 : Nat) (st1 st2 : BlobStore) (link : ContentLink) (r : Bytes),
      f1 ≤ f2 → List.IsSuffix st1 st2 → StoreConsistent st2 →
      read E st1 slots f1 link = Except.ok r → read E st2 slots f2 link = Except.ok r := by
  intro f1
  induction f1 with
  | zero =>
      intro f2 st1 st2 link r _ _ _ h
      simp [read] at h
  | succ f ih =>
      intro f2 st1 st2 link r hle hsuf hcons h
      cases f2 with
      | zero => omega
      | succ f2 =>
          simp only [read] at h ⊢
          split at h
          · exact Except.noConfusion h
          · rename_i address haddr
            cases hget : storeGet st1 address with
            | none =>
                simp only [hget] at h
                exact Except.noConfusion h
            | some data =>
                simp only [hget] at h
                simp only [storeGet_stable hsuf hcons hget]
                cases hts : readTransforms E (read E st1 slots f) link.transforms data with
                | error e =>
                    simp only [hts] at h
                    exact Except.noConfusion h
                | ok res =>
                    simp only [hts] at h
                    simp only [readTransforms_mono E
                      (fun l r2 hr2 => ih f2 st1 st2 l r2 (by omega) hsuf hcons hr2)
                      link.transforms data res hts]
                    exact h

/-- A link reads back as `bs` from every consistent store extending
`base`, for every sufficient fuel.  This is the shape in which "the link
written at one point in the pipeline still reads correctly at the end"
survives later writes. -/
def LinkReads (E : Ext) (base : BlobStore) (link : ContentLink) (bs : Bytes) : Prop :=
  ∃ f0, ∀ f st2, f0 ≤ f → List.IsSuffix base st2 → StoreConsistent st2 →
    read E st2 none f link = Except.ok bs

theorem linkReads_mono {E : Ext} {base base2 : BlobStore} {link : ContentLink}
    {bs : Bytes} (hsuf : List.IsSuffix base base2) (h : LinkReads E base link bs) :
    LinkReads E base2 link bs := by
  obtain ⟨f0, hf⟩ := h
  exact ⟨f0, fun f st2 hle hsuf2 hcons => hf f st2 hle (hsuf.trans hsuf2) hcons⟩

theorem randBytes_facts (n : Nat) (s : WState) :
    (randBytes n s).1.length = n ∧ (∀ x ∈ (randBytes n s).1, x < 256) ∧
    (randBytes n s).2.store = s.store := by
  refine ⟨by simp [randBytes], ?_, rfl⟩
  intro x hx
  simp only [randBytes, List.mem_map] at hx
  obtain ⟨i, _, rfl⟩ := hx
  exact Nat.mod_lt _ (by norm_num)

/-- Whatever key the `KeyPolicy` switch selects is byte-valued, and the
selection step never touches the blob store. -/
theorem selectKey_ok {E : Ext} {data : Bytes} {opts : WriterOptions}
    {sharedKey : Option Bytes} {s : WState} {key : Bytes} {s1 : WState}
    (hshaB : ∀ b, ∀ x ∈ E.sha256 b, x < 256)
    (hsupp : ∀ x ∈ opts.suppliedKey, x < 256)
    (hshk : ∀ k, sharedKey = some k → ∀ x ∈ k, x < 256)
    (h : selectKey E data opts sharedKey s = Except.ok (key, s1)) :
    (∀ x ∈ key, x < 256) ∧ s1.store = s.store := by
  have hrand : ∀ (m : Nat),
      (Except.ok (randBytes m s) : Except String (Bytes × WState)) = Except.ok (key, s1) →
      (∀ x ∈ key, x < 256) ∧ s1.store = s.store := by
    intro m hm
    injection hm with hm2
    obtain ⟨_, hb, hst⟩ := randBytes_facts m s
    have hk : (randBytes m s).1 = key := by rw [hm2]
    have hs : (randBytes m s).2 = s1 := by rw [hm2]
    subst hk
    subst hs
    exact ⟨hb, hst⟩
  unfold selectKey at h
  split at h
  · exact hrand 32 h
  · exact hrand 32 h
  · split at h
    · injection h with h2
      obtain ⟨hk, hs⟩ := Prod.mk.inj h2
      subst hk
      subst hs
      exact ⟨hshk _ rfl, rfl⟩
    · exact hrand 32 h
  · split at h
    · injection h with h2
      obtain ⟨hk, hs⟩ := Prod.mk.inj h2
      subst hk
      subst hs
      exact ⟨hshk _ rfl, rfl⟩
    · split at h
      · injection h with h2
        obtain ⟨hk, hs⟩ := Prod.mk.inj h2
        subst hk
        subst hs
        exact ⟨hsupp, rfl⟩
      · exact Except.noConfusion h
  · injection h with h2
    obtain ⟨hk, hs⟩ := Prod.mk.inj h2
    subst hk
    subst hs
    exact ⟨hshaB data, rfl⟩
  · exact Except.noConfusion h


/-- The `aes-256-cbc` arm of `writeBlock` prepends one blob whose
`Decipher`-led transform list reads back to the plaintext. -/
theorem writeBlockAes_reads {E : Ext} {data currentData : Bytes} {opts : WriterOptions}
    {sharedKey : Option Bytes} {expected : String} {transforms : List ContentTransform}
    {s : WState} {link : ContentLink} {s2 : WState}
    (hAES : ∀ k b, E.aesDecBlock k (E.aesEncBlock k b) = b)
    (hLen : ∀ k b, (E.aesEncBlock k b).length = b.length)
    (hshaB : ∀ b, ∀ x ∈ E.sha256 b, x < 256)
    (hsupp : ∀ x ∈ opts.suppliedKey, x < 256)
    (hshk : ∀ k, sharedKey = some k → ∀ x ∈ k, x < 256)
    (hrt : ∀ rc, readTransforms E rc transforms currentData = Except.ok data)
    (h : writeBlockAes E data opts sharedKey expected transforms currentData s =
      Except.ok (link, s2)) :
    ∃ stored,
      s2.store = (link.address, stored) :: s.store ∧
      link.slot = false ∧ link.expected = expected ∧
      ∀ rc, readTransforms E rc link.transforms stored = Except.ok data := by
  unfold writeBlockAes at h
  split at h
  · exact Except.noConfusion h
  · rename_i key s1 hsel
    obtain ⟨hkeyB, hst1⟩ := selectKey_ok hshaB hsupp hshk hsel
    have hrb := randBytes_facts 16 s1
    rcases hrbe : randBytes 16 s1 with ⟨iv, s2p⟩
    rw [hrbe] at hrb
    simp only [hrbe] at h
    split at h
    · rename_i hklen
      simp only [inMemStore] at h
      cases h
      refine ⟨cbcEncrypt E key iv (pkcs7pad currentData), ?_, rfl, rfl, ?_⟩
      · show _ :: s2p.store = _ :: s.store
        rw [hrb.2.2, hst1]
      · intro rc
        simp only [readTransforms]
        rw [applyTransform_decipher_ok E rc key iv currentData hAES hLen hklen hkeyB
          hrb.1 hrb.2.1]
        exact hrt rc
    · exact Except.noConfusion h

/-- `writeBlock` prepends exactly one blob to the store and yields a
non-slot link whose `expected` is the hex SHA-256 of the plaintext and
whose transforms read the stored blob back to the plaintext, for any
child reader. -/
theorem writeBlock_reads {E : Ext} {data : Bytes} {opts : WriterOptions}
    {sharedKey : Option Bytes} {s : WState} {link : ContentLink} {s2 : WState}
    (hdefl : ∀ b, E.deflateDecomp (E.deflateComp b) = some b)
    (hgzip : ∀ b, E.gzipDecomp (E.gzipComp b) = some b)
    (hAES : ∀ k b, E.aesDecBlock k (E.aesEncBlock k b) = b)
    (hLen : ∀ k b, (E.aesEncBlock k b).length = b.length)
    (hshaB : ∀ b, ∀ x ∈ E.sha256 b, x < 256)
    (hsupp : ∀ x ∈ opts.suppliedKey, x < 256)
    (hshk : ∀ k, sharedKey = some k → ∀ x ∈ k, x < 256)
    (h : writeBlock E data opts sharedKey s = Except.ok (link, s2)) :
    ∃ stored,
      s2.store = (link.address, stored) :: s.store ∧
      link.slot = false ∧
      link.expected = hexEncode (E.sha256 data) ∧
      ∀ rc, readTransforms E rc link.transforms stored = Except.ok data := by
  simp only [writeBlock] at h
  split at h
  · exact Except.noConfusion h
  · rename_i currentData transforms heq
    split at heq
    · injection heq with heqp
      obtain ⟨h1, h2⟩ := Prod.mk.inj heqp
      subst h1
      subst h2
      split at h
      · simp only [inMemStore] at h
        cases h
        refine ⟨data, rfl, rfl, rfl, fun rc => ?_⟩
        rfl
      · refine writeBlockAes_reads hAES hLen hshaB hsupp hshk (fun rc => ?_) h
        rfl
      · exact Except.noConfusion h
    · injection heq with heqp
      obtain ⟨h1, h2⟩ := Prod.mk.inj heqp
      subst h1
      subst h2
      have hrt : ∀ rc, readTransforms E rc
          [({ kind := "Decompress", algorithm := "inflate" } : ContentTransform)]
          (E.deflateComp data) = Except.ok data := by
        intro rc
        simp +decide [readTransforms, applyTransform, hdefl]
      split at h
      · simp only [inMemStore] at h
        cases h
        exact ⟨E.deflateComp data, rfl, rfl, rfl, hrt⟩
      · exact writeBlockAes_reads hAES hLen hshaB hsupp hshk hrt h
      · exact Except.noConfusion h
    · injection heq with heqp
      obtain ⟨h1, h2⟩ := Prod.mk.inj heqp
      subst h1
      subst h2
      have hrt : ∀ rc, readTransforms E rc
          [({ kind := "Decompress", algorithm := "gzip" } : ContentTransform)]
          (E.gzipComp data) = Except.ok data := by
        intro rc
        simp +decide [readTransforms, applyTransform, hgzip]
      split at h
      · simp only [inMemStore] at h
        cases h
        exact ⟨E.gzipComp data, rfl, rfl, rfl, hrt⟩
      · exact writeBlockAes_reads hAES hLen hshaB hsupp hshk hrt h
      · exact Except.noConfusion h
    · exact Except.noConfusion heq

theorem readTransforms_append (E : Ext) (rc : ContentLink → Except String Bytes) :
    ∀ (ts1 ts2 : List ContentTransform) (data : Bytes),
      readTransforms E rc (ts1 ++ ts2) data =
        match readTransforms E rc ts1 data with
        | Except.error e => Except.error e
        | Except.ok d => readTransforms E rc ts2 d := by
  intro ts1
  induction ts1 with
  | nil => intro ts2 data; rfl
  | cons t rest ih =>
      intro ts2 data
      show readTransforms E rc (t :: (rest ++ ts2)) data = _
      simp only [readTransforms]
      cases applyTransform E rc t data with
      | error e => rfl
      | ok d => exact ih ts2 d

/-- A link that points at a stored blob, is not slot-addressed, carries a
correct (or empty) `expected`, and whose transforms recover `data`, reads
back as `data`. -/
theorem leaf_linkReads {E : Ext} {base : BlobStore} {link : ContentLink}
    {stored data : Bytes}
    (hget : storeGet base link.address = some stored)
    (hslot : link.slot = false)
    (hexp : link.expected = "" ∨ link.expected = hexEncode (E.sha256 data))
    (hrt : ∀ rc, readTransforms E rc link.transforms stored = Except.ok data) :
    LinkReads E base link data := by
  refine ⟨1, fun f st2 hle hsuf hcons => ?_⟩
  cases f with
  | zero => omega
  | succ f =>
      have hst2 : storeGet st2 link.address = some stored :=
        storeGet_stable hsuf hcons hget
      obtain ⟨addr, slot, ts, exp, prim⟩ := link
      simp only at hslot hexp hst2 hrt
      subst hslot
      simp only [read, if_neg Bool.false_ne_true, hst2, hrt]
      rcases hexp with hexp | hexp
      · subst hexp
        simp
      · subst hexp
        simp

/-- The children of a block list read back and concatenate. -/
theorem readConcat_reads {E : Ext} {base : BlobStore} :
    ∀ {items : List BlockListItem} {datas : List Bytes},
      List.Forall₂ (fun it d => LinkReads E base it.content d) items datas →
      ∃ f0, ∀ f st2, f0 ≤ f → List.IsSuffix base st2 → StoreConsistent st2 →
        readConcat (read E st2 none f) items = Except.ok (concatBytes datas) := by
  intro items
  induction items with
  | nil =>
      intro datas hf
      cases hf
      exact ⟨0, fun f st2 _ _ _ => rfl⟩
  | cons it rest ih =>
      intro datas hf
      cases hf with
      | cons hhead htail =>
          rename_i d ds
          obtain ⟨f1, h1⟩ := hhead
          obtain ⟨f2, h2⟩ := ih htail
          refine ⟨max f1 f2, fun f st2 hle hsuf hcons => ?_⟩
          simp only [readConcat,
            h1 f st2 (le_trans (le_max_left _ _) hle) hsuf hcons,
            h2 f st2 (le_trans (le_max_right _ _) hle) hsuf hcons,
            concatBytes]

/-- Packaging of `writeBlock_reads`: the store grows by a suffix and the
link reads back from every later consistent store. -/
theorem writeBlock_linkReads {E : Ext} {data : Bytes} {opts : WriterOptions}
    {sharedKey : Option Bytes} {s : WState} {link : ContentLink} {s2 : WState}
    (hdefl : ∀ b, E.deflateDecomp (E.deflateComp b) = some b)
    (hgzip : ∀ b, E.gzipDecomp (E.gzipComp b) = some b)
    (hAES : ∀ k b, E.aesDecBlock k (E.aesEncBlock k b) = b)
    (hLen : ∀ k b, (E.aesEncBlock k b).length = b.length)
    (hshaB : ∀ b, ∀ x ∈ E.sha256 b, x < 256)
    (hsupp : ∀ x ∈ opts.suppliedKey, x < 256)
    (hshk : ∀ k, sharedKey = some k → ∀ x ∈ k, x < 256)
    (h : writeBlock E data opts sharedKey s = Except.ok (link, s2)) :
    List.IsSuffix s.store s2.store ∧ link.expected = hexEncode (E.sha256 data) ∧
    LinkReads E s2.store link data := by
  obtain ⟨stored, hst, hslot, hexp, hrt⟩ :=
    writeBlock_reads hdefl hgzip hAES hLen hshaB hsupp hshk h
  have hget : storeGet s2.store link.address = some stored := by
    rw [hst]
    simp [storeGet]
  refine ⟨?_, hexp, leaf_linkReads hget hslot (Or.inr hexp) hrt⟩
  rw [hst]
  exact List.suffix_cons _ _


theorem concatBytes_append : ∀ (xs ys : List Bytes),
    concatBytes (xs ++ ys) = concatBytes xs ++ concatBytes ys := by
  intro xs ys
  induction xs with
  | nil => rfl
  | cons x rest ih => simp only [List.cons_append, concatBytes, List.append_eq, ih, List.append_assoc]

theorem forall2_append_single {α β : Type} {R : α → β → Prop} :
    ∀ {l1 : List α} {l2 : List β} {a : α} {b : β},
      List.Forall₂ R l1 l2 → R a b → List.Forall₂ R (l1 ++ [a]) (l2 ++ [b]) := by
  intro l1
  induction l1 with
  | nil =>
      intro l2 a b hf hr
      cases hf
      exact List.Forall₂.cons hr List.Forall₂.nil
  | cons x rest ih =>
      intro l2 a b hf hr
      cases hf with
      | cons hx htail => exact List.Forall₂.cons hx (ih htail hr)

/-- The chunking loop of the writer: every emitted item's link reads back
as its chunk, and the chunks concatenate to the input stream. -/
theorem splitLoop_reads {E : Ext} {opts : WriterOptions} {sharedKey : Option Bytes}
    (hdefl : ∀ b, E.deflateDecomp (E.deflateComp b) = some b)
    (hgzip : ∀ b, E.gzipDecomp (E.gzipComp b) = some b)
    (hAES : ∀ k b, E.aesDecBlock k (E.aesEncBlock k b) = b)
    (hLen : ∀ k b, (E.aesEncBlock k b).length = b.length)
    (hshaB : ∀ b, ∀ x ∈ E.sha256 b, x < 256)
    (hsupp : ∀ x ∈ opts.suppliedKey, x < 256)
    (hshk : ∀ k, sharedKey = some k → ∀ x ∈ k, x < 256) :
    ∀ (input : Bytes) (bh : BuzHash) (curr : Bytes) (blocks : List BlockListItem)
      (datas : List Bytes) (s : WState) (blocks2 : List BlockListItem) (s2 : WState),
      (input = [] → curr = []) →
      splitLoop E opts sharedKey input bh curr blocks s = Except.ok (blocks2, s2) →
      List.Forall₂ (fun it d => LinkReads E s.store it.content d) blocks datas →
      List.IsSuffix s.store s2.store ∧
      ∃ datas2, List.Forall₂ (fun it d => LinkReads E s2.store it.content d) blocks2 datas2 ∧
        concatBytes datas2 = concatBytes datas ++ curr ++ input := by
  intro input
  induction input with
  | nil =>
      intro bh curr blocks datas s blocks2 s2 hcurr h hf
      injection h with hp
      obtain ⟨h1, h2⟩ := Prod.mk.inj hp
      subst h1
      subst h2
      rw [hcurr rfl]
      exact ⟨List.suffix_refl _, datas, hf, by simp⟩
  | cons c rest ih =>
      intro bh curr blocks datas s blocks2 s2 _ h hf
      simp only [splitLoop] at h
      split at h
      · split at h
        · exact Except.noConfusion h
        · rename_i lk sB hwb
          obtain ⟨hsufB, hexpB, hreads⟩ :=
            writeBlock_linkReads hdefl hgzip hAES hLen hshaB hsupp hshk hwb
          have hf2 : List.Forall₂ (fun it d => LinkReads E sB.store it.content d)
              (blocks ++ [{ content := lk, size := (curr ++ [c]).length }])
              (datas ++ [curr ++ [c]]) :=
            forall2_append_single
              (hf.imp (fun _ _ h2 => linkReads_mono hsufB h2)) hreads
          obtain ⟨hsuf2, datas2, hf3, hconcat⟩ :=
            ih (NewBuzHash 64) [] _ _ sB blocks2 s2 (fun _ => rfl) h hf2
          refine ⟨hsufB.trans hsuf2, datas2, hf3, ?_⟩
          rw [hconcat, concatBytes_append]
          simp [concatBytes]
      · rename_i hcond
        obtain ⟨hsuf2, datas2, hf3, hconcat⟩ :=
          ih _ (curr ++ [c]) _ _ s blocks2 s2
            (fun hr => absurd hr (fun hr2 => hcond (Or.inr (Or.inr hr2)))) h hf
        refine ⟨hsuf2, datas2, hf3, ?_⟩
        rw [hconcat]
        simp

/-- `content.splitBlocks` writes one block per chunk; the chunks
concatenate back to the stream. -/
theorem splitBlocks_reads {E : Ext} {opts : WriterOptions} {sharedKey : Option Bytes}
    {data : Bytes} {s : WState} {blocks : List BlockListItem} {s2 : WState}
    (hdefl : ∀ b, E.deflateDecomp (E.deflateComp b) = some b)
    (hgzip : ∀ b, E.gzipDecomp (E.gzipComp b) = some b)
    (hAES : ∀ k b, E.aesDecBlock k (E.aesEncBlock k b) = b)
    (hLen : ∀ k b, (E.aesEncBlock k b).length = b.length)
    (hshaB : ∀ b, ∀ x ∈ E.sha256 b, x < 256)
    (hsupp : ∀ x ∈ opts.suppliedKey, x < 256)
    (hshk : ∀ k, sharedKey = some k → ∀ x ∈ k, x < 256)
    (hne : data ≠ [])
    (h : splitBlocks E data opts sharedKey s = Except.ok (blocks, s2)) :
    List.IsSuffix s.store s2.store ∧
    ∃ datas, List.Forall₂ (fun it d => LinkReads E s2.store it.content d) blocks datas ∧
      concatBytes datas = data := by
  obtain ⟨hsuf, datas, hf, hconcat⟩ :=
    splitLoop_reads hdefl hgzip hAES hLen hshaB hsupp hshk data (NewBuzHash 64) [] [] []
      s blocks s2 (fun hd => absurd hd hne) h List.Forall₂.nil
  refine ⟨hsuf, datas, hf, ?_⟩
  rw [hconcat]
  rfl


theorem applyTransform_blocks (E : Ext) (rc : ContentLink → Except String Bytes)
    (data : Bytes) :
    applyTransform E rc ({ kind := "Blocks" } : ContentTransform) data =
      match E.jsonDecodeBlockList data with
      | none => Except.error "failed to parse block list"
      | some bl => readConcat rc bl := rfl

/-- Generalization of `leaf_linkReads` in which the transform fold may
use the actual child reader (for `Blocks` links). -/
theorem linkReads_of_transforms {E : Ext} {base : BlobStore} {link : ContentLink}
    {stored data : Bytes}
    (hget : storeGet base link.address = some stored)
    (hslot : link.slot = false)
    (hexp : link.expected = "" ∨ link.expected = hexEncode (E.sha256 data))
    (f1 : Nat)
    (hrt : ∀ f st2, f1 ≤ f → List.IsSuffix base st2 → StoreConsistent st2 →
      readTransforms E (read E st2 none f) link.transforms stored = Except.ok data) :
    LinkReads E base link data := by
  refine ⟨f1 + 1, fun f st2 hle hsuf hcons => ?_⟩
  cases f with
  | zero => omega
  | succ f =>
      have hst2 : storeGet st2 link.address = some stored :=
        storeGet_stable hsuf hcons hget
      have hrt2 := hrt f st2 (by omega) hsuf hcons
      obtain ⟨addr, slot, ts, exp, prim⟩ := link
      simp only at hslot hexp hst2 hrt2
      subst hslot
      simp only [read, if_neg Bool.false_ne_true, hst2, hrt2]
      rcases hexp with hexp | hexp
      · subst hexp
        simp
      · subst hexp
        simp

theorem forall2_take {α β : Type} {R : α → β → Prop} :
    ∀ (n : Nat) {l1 : List α} {l2 : List β}, List.Forall₂ R l1 l2 →
      List.Forall₂ R (l1.take n) (l2.take n) := by
  intro n
  induction n with
  | zero => intro l1 l2 _; exact List.Forall₂.nil
  | succ n ihn =>
      intro l1 l2 hf
      cases hf with
      | nil => exact List.Forall₂.nil
      | cons hx ht => exact List.Forall₂.cons hx (ihn ht)

theorem forall2_drop {α β : Type} {R : α → β → Prop} :
    ∀ (n : Nat) {l1 : List α} {l2 : List β}, List.Forall₂ R l1 l2 →
      List.Forall₂ R (l1.drop n) (l2.drop n) := by
  intro n
  induction n with
  | zero => intro l1 l2 hf; exact hf
  | succ n ihn =>
      intro l1 l2 hf
      cases hf with
      | nil => exact List.Forall₂.nil
      | cons _ ht => exact ihn ht

theorem forall2_groupLoop {α β : Type} {R : α → β → Prop} {l1 : List α} {l2 : List β}
    (hf : List.Forall₂ R l1 l2) :
    ∀ (n i : Nat), List.Forall₂ (List.Forall₂ R) (groupLoop l1 n i) (groupLoop l2 n i) := by
  intro n
  induction n with
  | zero => intro i; exact List.Forall₂.nil
  | succ n ihn =>
      intro i
      exact List.Forall₂.cons (forall2_take 1000 (forall2_drop (i * 1000) hf)) (ihn (i + 1))

theorem le_ceilDiv_mul (a : Nat) : a ≤ ceilDiv a 1000 * 1000 := by
  unfold ceilDiv
  omega

theorem concat_map_groupLoop : ∀ (n i : Nat) (datas : List Bytes),
    datas.length ≤ (i + n) * 1000 →
    concatBytes (List.map concatBytes (groupLoop datas n i)) =
      concatBytes (datas.drop (i * 1000)) := by
  intro n
  induction n with
  | zero =>
      intro i datas hlen
      rw [List.drop_eq_nil_of_le (by simpa using hlen)]
      rfl
  | succ n ihn =>
      intro i datas hlen
      show concatBytes (concatBytes ((datas.drop (i * 1000)).take 1000) ::
        List.map concatBytes (groupLoop datas n (i + 1))) = _
      simp only [concatBytes]
      rw [ihn (i + 1) datas (by omega)]
      have hmul : (i + 1) * 1000 = 1000 + i * 1000 := by omega
      have hdd : datas.drop ((i + 1) * 1000) = (datas.drop (i * 1000)).drop 1000 := by
        rw [List.drop_drop, hmul, Nat.add_comm]
      rw [hdd, ← concatBytes_append, List.take_append_drop]

/-- Each group of `writeBlockList` is written through the recursive call;
the parent items read back as the concatenations of their groups. -/
theorem writeGroups_reads {E : Ext}
    {wbl : List BlockListItem → WState → Except String (ContentLink × WState)}
    (hwbl : ∀ items datas s link s2, wbl items s = Except.ok (link, s2) →
      List.Forall₂ (fun it d => LinkReads E s.store it.content d) items datas →
      List.IsSuffix s.store s2.store ∧ link.expected = "" ∧
      LinkReads E s2.store link (concatBytes datas)) :
    ∀ (gs : List (List BlockListItem)) (dss : List (List Bytes)) (s : WState)
      (res : List BlockListItem) (s2 : WState),
      writeGroups wbl gs s = Except.ok (res, s2) →
      List.Forall₂ (fun g ds =>
        List.Forall₂ (fun it d => LinkReads E s.store it.content d) g ds) gs dss →
      List.IsSuffix s.store s2.store ∧
      List.Forall₂ (fun it d => LinkReads E s2.store it.content d) res
        (dss.map concatBytes) := by
  intro gs
  induction gs with
  | nil =>
      intro dss s res s2 h hf
      cases hf
      injection h with hp
      obtain ⟨h1, h2⟩ := Prod.mk.inj hp
      subst h1
      subst h2
      exact ⟨List.suffix_refl _, List.Forall₂.nil⟩
  | cons g gs ih =>
      intro dss s res s2 h hf
      cases hf with
      | cons hg htail =>
          rename_i ds dss2
          simp only [writeGroups] at h
          split at h
          · exact Except.noConfusion h
          · rename_i subLink sA hsub
            split at h
            · exact Except.noConfusion h
            · rename_i rest sB hrest
              injection h with hp
              obtain ⟨h1, h2⟩ := Prod.mk.inj hp
              subst h1
              subst h2
              obtain ⟨hsufA, _, hsubReads⟩ := hwbl g ds s subLink sA hsub hg
              obtain ⟨hsufB, hfRest⟩ := ih dss2 sA rest sB hrest
                (htail.imp (fun _ _ h2 => h2.imp (fun _ _ h3 => linkReads_mono hsufA h3)))
              exact ⟨hsufA.trans hsufB,
                List.Forall₂.cons (linkReads_mono hsufB hsubReads) hfRest⟩

/-- `content.writeBlockList`: the resulting link has `expected` cleared
and reads back as the concatenation of the items' contents. -/
theorem writeBlockList_reads {E : Ext} {opts : WriterOptions} {sharedKey : Option Bytes}
    (hdefl : ∀ b, E.deflateDecomp (E.deflateComp b) = some b)
    (hgzip : ∀ b, E.gzipDecomp (E.gzipComp b) = some b)
    (hAES : ∀ k b, E.aesDecBlock k (E.aesEncBlock k b) = b)
    (hLen : ∀ k b, (E.aesEncBlock k b).length = b.length)
    (hshaB : ∀ b, ∀ x ∈ E.sha256 b, x < 256)
    (hsupp : ∀ x ∈ opts.suppliedKey, x < 256)
    (hshk : ∀ k, sharedKey = some k → ∀ x ∈ k, x < 256)
    (hjson : ∀ bl, E.jsonDecodeBlockList (E.jsonEncodeBlockList bl) = some bl) :
    ∀ (fuel : Nat) (items : List BlockListItem) (datas : List Bytes) (s : WState)
      (link : ContentLink) (s2 : WState),
      writeBlockList E opts sharedKey fuel items s = Except.ok (link, s2) →
      List.Forall₂ (fun it d => LinkReads E s.store it.content d) items datas →
      List.IsSuffix s.store s2.store ∧ link.expected = "" ∧
      LinkReads E s2.store link (concatBytes datas) := by
  intro fuel
  induction fuel with
  | zero =>
      intro items datas s link s2 h _
      exact Except.noConfusion h
  | succ fuel ih =>
      intro items datas s link s2 h hf
      simp only [writeBlockList] at h
      split at h
      · split at h
        · exact Except.noConfusion h
        · rename_i lk0 sB hwb
          injection h with hp
          obtain ⟨h1, h2⟩ := Prod.mk.inj hp
          subst h1
          subst h2
          obtain ⟨stored, hst, hslot, hexp, hrt⟩ :=
            writeBlock_reads hdefl hgzip hAES hLen hshaB hsupp hshk hwb
          have hsufB : List.IsSuffix s.store sB.store := by
            rw [hst]
            exact List.suffix_cons _ _
          obtain ⟨fc0, hconcat⟩ := readConcat_reads hf
          refine ⟨hsufB, rfl, ?_⟩
          refine @linkReads_of_transforms E sB.store _ stored (concatBytes datas)
            ?_ ?_ (Or.inl rfl) fc0 ?_
          · rw [hst]
            simp [storeGet]
          · exact hslot
          · intro f st2 hge hsuf hcons
            show readTransforms E (read E st2 none f)
              (lk0.transforms ++ [({ kind := "Blocks" } : ContentTransform)]) stored =
              Except.ok (concatBytes datas)
            rw [readTransforms_append]
            simp only [hrt (read E st2 none f)]
            simp only [readTransforms, applyTransform_blocks, hjson items,
              hconcat f st2 hge (hsufB.trans hsuf) hcons]
      · split at h
        · exact Except.noConfusion h
        · rename_i parentItems sG hwg
          have hlen : items.length = datas.length := hf.length_eq
          obtain ⟨hsufG, hfG⟩ := writeGroups_reads
            (fun its ds s3 l3 s4 h3 hf3 => ih its ds s3 l3 s4 h3 hf3)
            (groupLoop items (ceilDiv items.length 1000) 0)
            (groupLoop datas (ceilDiv items.length 1000) 0) s parentItems sG hwg
            (forall2_groupLoop hf (ceilDiv items.length 1000) 0)
          obtain ⟨hsuf2, hexp2, hreads⟩ := ih parentItems
            ((groupLoop datas (ceilDiv items.length 1000) 0).map concatBytes)
            sG link s2 h hfG
          refine ⟨hsufG.trans hsuf2, hexp2, ?_⟩
          have hcc : concatBytes
              ((groupLoop datas (ceilDiv items.length 1000) 0).map concatBytes) =
              concatBytes datas := by
            rw [concat_map_groupLoop (ceilDiv items.length 1000) 0 datas
              (by simpa [hlen] using le_ceilDiv_mul datas.length)]
            simp
          rwa [hcc] at hreads


/-- C1.  Whenever `content.Write` succeeds — which it does exactly for
compress ∈ {none, inflate, gzip} with encrypt ∈ {none, aes-256-cbc} and an
applicable key policy — the returned link reads back to exactly the
original stream from every hash-consistent store extending the writer's
final store, and the link's `expected`, when set, is the hex SHA-256 of
the stream.  The hypotheses are the Go library contracts: the codecs
invert, AES block decryption inverts encryption and preserves length,
digests are byte-valued, a supplied key is byte-valued, and (only needed
for streams above `targetBlockSize`) JSON block-list decoding inverts
encoding.  The spec's inclusion of `brotli` among the supported
compressions is refuted by `C1_brotli_unsupported`: such a `Write` fails
outright, so the roundtrip holds precisely for the three supported
compressions. -/
theorem C1_write_read_roundtrip {E : Ext} {fuel : Nat} {data : Bytes}
    {opts : WriterOptions} {s : WState} {link : ContentLink} {s2 : WState}
    (hdefl : ∀ b, E.deflateDecomp (E.deflateComp b) = some b)
    (hgzip : ∀ b, E.gzipDecomp (E.gzipComp b) = some b)
    (hAES : ∀ k b, E.aesDecBlock k (E.aesEncBlock k b) = b)
    (hLen : ∀ k b, (E.aesEncBlock k b).length = b.length)
    (hshaB : ∀ b, ∀ x ∈ E.sha256 b, x < 256)
    (hsupp : ∀ x ∈ opts.suppliedKey, x < 256)
    (hjson : targetBlockSize < data.length →
      ∀ bl, E.jsonDecodeBlockList (E.jsonEncodeBlockList bl) = some bl)
    (h : write E fuel data opts s = Except.ok (link, s2)) :
    (link.expected ≠ "" → link.expected = hexEncode (E.sha256 data)) ∧
    LinkReads E s2.store link data := by
  unfold write at h
  split at h
  · rename_i hlen0
    have hdata : data = [] := List.eq_nil_of_length_eq_zero hlen0
    subst hdata
    obtain ⟨_, hexp, hreads⟩ := writeBlock_linkReads hdefl hgzip hAES hLen hshaB hsupp
      (fun k hk => Option.noConfusion hk) h
    exact ⟨fun _ => hexp, hreads⟩
  · rename_i hlen0
    split at h
    · obtain ⟨_, hexp, hreads⟩ := writeBlock_linkReads hdefl hgzip hAES hLen hshaB hsupp
        (fun k hk => Option.noConfusion hk) h
      exact ⟨fun _ => hexp, hreads⟩
    · rename_i hlenT
      have hjson2 := hjson (by omega)
      have hne : data ≠ [] := by
        intro hd
        exact hlen0 (by rw [hd]; rfl)
      have tail : ∀ (sharedKey : Option Bytes) (s1 : WState),
          (∀ k, sharedKey = some k → ∀ x ∈ k, x < 256) →
          (match splitBlocks E data opts sharedKey s1 with
           | Except.error e => Except.error e
           | Except.ok (blocks, s3) => writeBlockList E opts sharedKey fuel blocks s3) =
            Except.ok (link, s2) →
          (link.expected ≠ "" → link.expected = hexEncode (E.sha256 data)) ∧
          LinkReads E s2.store link data := by
        intro sharedKey s1 hshk h2
        split at h2
        · exact Except.noConfusion h2
        · rename_i blocks sSp hsb
          obtain ⟨hsufSp, datas, hfB, hconcat⟩ := splitBlocks_reads hdefl hgzip hAES hLen
            hshaB hsupp hshk hne hsb
          obtain ⟨hsufL, hexpL, hreadsL⟩ := writeBlockList_reads hdefl hgzip hAES hLen
            hshaB hsupp hshk hjson2 fuel blocks datas sSp link s2 h2 hfB
          rw [hconcat] at hreadsL
          exact ⟨fun hne2 => absurd hexpL hne2, hreadsL⟩
      split at h
      · rcases hrbe : randBytes 32 s with ⟨k0, s1p⟩
        obtain ⟨_, hb, _⟩ := randBytes_facts 32 s
        rw [hrbe] at hb
        simp only [hrbe] at h
        exact tail (some k0) s1p (fun k hk => by cases hk; exact hb) h
      · split at h
        · exact tail (some opts.suppliedKey) s (fun k hk => by cases hk; exact hsupp) h
        · exact Except.noConfusion h
      · exact tail none s (fun k hk => Option.noConfusion hk) h

/-- The counterexample refuting the `brotli` part of C1:
`writer.go` supports only "", "inflate" and "gzip", so a `Write` with
`compress = "brotli"` errors instead of producing a readable link. -/
theorem C1_brotli_unsupported :
    write constExt 1 [0] ({ compressAlgorithm := "brotli" } : WriterOptions)
      { store := [], rnd := fun _ => 0, pos := 0 } =
      Except.error "unsupported compression: brotli" := rfl

theorem C1_write_read_roundtrip_witness :
    ∃ link s2, write constExt 1 [1, 2, 3]
        ({ compressAlgorithm := "gzip", encryptAlgorithm := "aes-256-cbc",
           keyPolicy := "Deterministic", suppliedKey := [] } : WriterOptions)
        { store := [], rnd := fun _ => 0, pos := 0 } = Except.ok (link, s2) ∧
      (link.expected ≠ "" → link.expected = hexEncode (constExt.sha256 [1, 2, 3])) ∧
      LinkReads constExt s2.store link [1, 2, 3] := by
  cases hw : write constExt 1 [1, 2, 3]
      ({ compressAlgorithm := "gzip", encryptAlgorithm := "aes-256-cbc",
         keyPolicy := "Deterministic", suppliedKey := [] } : WriterOptions)
      { store := [], rnd := fun _ => 0, pos := 0 } with
  | error e =>
      have hok : isOkE (write constExt 1 [1, 2, 3]
          ({ compressAlgorithm := "gzip", encryptAlgorithm := "aes-256-cbc",
             keyPolicy := "Deterministic", suppliedKey := [] } : WriterOptions)
          { store := [], rnd := fun _ => 0, pos := 0 }) = true := rfl
      rw [hw] at hok
      exact Bool.noConfusion hok
  | ok p =>
      obtain ⟨link, s2⟩ := p
      refine ⟨link, s2, rfl, ?_⟩
      exact C1_write_read_roundtrip (fun b => rfl) (fun b => rfl) (fun k b => rfl)
        (fun k b => rfl)
        (fun b x hx => by
          simp only [constExt, List.mem_replicate] at hx
          omega)
        (fun x hx => absurd hx (List.not_mem_nil x))
        (fun habs => absurd habs (by decide))
        hw


/-! ### C5: block-list assembly -/

def joinList {α : Type} : List (List α) → List α
  | [] => []
  | g :: gs => g ++ joinList gs

theorem groupLoop_length_le {α : Type} (items : List α) :
    ∀ (n i : Nat), ∀ g ∈ groupLoop items n i, g.length ≤ 1000 := by
  intro n
  induction n with
  | zero =>
      intro i g hg
      simp [groupLoop] at hg
  | succ n ihn =>
      intro i g hg
      rcases List.mem_cons.1 hg with hg | hg
      · rw [hg]
        exact List.length_take_le _ _
      · exact ihn (i + 1) g hg

theorem joinList_groupLoop {α : Type} : ∀ (n i : Nat) (items : List α),
    items.length ≤ (i + n) * 1000 →
    joinList (groupLoop items n i) = items.drop (i * 1000) := by
  intro n
  induction n with
  | zero =>
      intro i items hlen
      rw [List.drop_eq_nil_of_le (by simpa using hlen)]
      rfl
  | succ n ihn =>
      intro i items hlen
      show (items.drop (i * 1000)).take 1000 ++ joinList (groupLoop items n (i + 1)) = _
      rw [ihn (i + 1) items (by omega)]
      have hmul : (i + 1) * 1000 = 1000 + i * 1000 := by omega
      have hdd : items.drop ((i + 1) * 1000) = (items.drop (i * 1000)).drop 1000 := by
        rw [List.drop_drop, hmul, Nat.add_comm]
      rw [hdd, List.take_append_drop]

/-- Every successful `writeBlockList` bottoms out in a `writeBlock` of a
marshalled item list that fits in `maxBlockSize`, and the resulting link
is that block's link with a `Blocks` transform appended last and
`expected` cleared. -/
theorem writeBlockList_shape {E : Ext} {opts : WriterOptions} {sharedKey : Option Bytes} :
    ∀ (fuel : Nat) (items : List BlockListItem) (s : WState) (link : ContentLink)
      (s2 : WState),
      writeBlockList E opts sharedKey fuel items s = Except.ok (link, s2) →
      ∃ (items2 : List BlockListItem) (s1 : WState) (lk0 : ContentLink),
        (E.jsonEncodeBlockList items2).length ≤ maxBlockSize ∧
        writeBlock E (E.jsonEncodeBlockList items2) opts sharedKey s1 =
          Except.ok (lk0, s2) ∧
        link = { lk0 with
          transforms := lk0.transforms ++ [({ kind := "Blocks" } : ContentTransform)],
          expected := "" } := by
  intro fuel
  induction fuel with
  | zero =>
      intro items s link s2 h
      exact Except.noConfusion h
  | succ fuel ih =>
      intro items s link s2 h
      simp only [writeBlockList] at h
      split at h
      · rename_i hfits
        split at h
        · exact Except.noConfusion h
        · rename_i lk0 sB hwb
          injection h with hp
          obtain ⟨h1, h2⟩ := Prod.mk.inj hp
          subst h1
          subst h2
          exact ⟨items, s, lk0, hfits, hwb, rfl⟩
      · split at h
        · exact Except.noConfusion h
        · rename_i parentItems sG hwg
          exact ih parentItems sG link s2 h

/-- C5.  `writeBlockList` partitions its items into the slices of
`groupLoop`: each group holds at most 1000 items and the groups
partition the item list exactly.  Every successful call — in particular
after every recursion step taken when the marshalled JSON exceeds
`maxBlockSize` — returns the link of a block written through the same
compress/encrypt/store pipeline (`writeBlock`) on a marshalled list that
fits in `maxBlockSize`, with a `Blocks` transform appended last in its
transform list and with `expected` cleared. -/
theorem C5_block_list_assembly {E : Ext} {opts : WriterOptions} {sharedKey : Option Bytes}
    {fuel : Nat} {items : List BlockListItem} {s : WState} {link : ContentLink}
    {s2 : WState}
    (h : writeBlockList E opts sharedKey fuel items s = Except.ok (link, s2)) :
    (∀ g ∈ groupLoop items (ceilDiv items.length 1000) 0, g.length ≤ 1000) ∧
    joinList (groupLoop items (ceilDiv items.length 1000) 0) = items ∧
    ∃ (items2 : List BlockListItem) (s1 : WState) (lk0 : ContentLink),
      (E.jsonEncodeBlockList items2).length ≤ maxBlockSize ∧
      writeBlock E (E.jsonEncodeBlockList items2) opts sharedKey s1 =
        Except.ok (lk0, s2) ∧
      link = { lk0 with
        transforms := lk0.transforms ++ [({ kind := "Blocks" } : ContentTransform)],
        expected := "" } := by
  refine ⟨groupLoop_length_le items _ 0, ?_, writeBlockList_shape fuel items s link s2 h⟩
  have hj := joinList_groupLoop (ceilDiv items.length 1000) 0 items
    (by simpa using le_ceilDiv_mul items.length)
  simpa using hj

theorem C5_block_list_assembly_witness :
    ∃ link s2,
      writeBlockList constExt ({} : WriterOptions) none 1 []
        { store := [], rnd := fun _ => 0, pos := 0 } = Except.ok (link, s2) ∧
      ∃ (items2 : List BlockListItem) (s1 : WState) (lk0 : ContentLink),
        (constExt.jsonEncodeBlockList items2).length ≤ maxBlockSize ∧
        writeBlock constExt (constExt.jsonEncodeBlockList items2) ({} : WriterOptions)
          none s1 = Except.ok (lk0, s2) ∧
        link = { lk0 with
          transforms := lk0.transforms ++ [({ kind := "Blocks" } : ContentTransform)],
          expected := "" } := by
  cases hw : writeBlockList constExt ({} : WriterOptions) none 1 []
      { store := [], rnd := fun _ => 0, pos := 0 } with
  | error e =>
      have hok : isOkE (writeBlockList constExt ({} : WriterOptions) none 1 []
          { store := [], rnd := fun _ => 0, pos := 0 }) = true := rfl
      rw [hw] at hok
      exact Bool.noConfusion hok
  | ok p =>
      obtain ⟨link, s2⟩ := p
      exact ⟨link, s2, rfl, (C5_block_list_assembly hw).2.2⟩


/-! ### C2: address stability under the deterministic key policy -/

/-- First projection of a successful write. -/
def okLink (e : Except String (ContentLink × WState)) : Option ContentLink :=
  match e with
  | Except.ok (l, _) => some l
  | Except.error _ => none

/-- An `Ext` whose digest keeps the first 32 bytes of its input, so that
distinct ciphertexts get distinct addresses. -/
def c2Ext : Ext :=
  { constExt with sha256 := fun b => (b ++ List.replicate 32 0).take 32 }

def c2opts : WriterOptions :=
  { encryptAlgorithm := "aes-256-cbc", keyPolicy := "Deterministic" }

/-- C2 fails in the code: under the `Deterministic` key policy the key is
the SHA-256 of the plaintext — and both runs below record the same
`Decipher` key — but `writeBlock` still draws a fresh random IV for every
block, so two `Write`s of the same plaintext with the same options (and
different random streams, as `crypto/rand` provides) encrypt to different
ciphertexts and land at different root blob addresses. -/
theorem C2_deterministic_address_not_stable :
    ∃ (l1 : ContentLink) (s1 : WState) (l2 : ContentLink) (s2 : WState),
      write c2Ext 1 [1, 2, 3] c2opts { store := [], rnd := fun _ => 0, pos := 0 } =
        Except.ok (l1, s1) ∧
      write c2Ext 1 [1, 2, 3] c2opts { store := [], rnd := fun _ => 1, pos := 0 } =
        Except.ok (l2, s2) ∧
      l1.transforms.map (fun t => (t.kind, t.key)) =
        l2.transforms.map (fun t => (t.kind, t.key)) ∧
      l1.address ≠ l2.address := by
  have hKeys : (okLink (write c2Ext 1 [1, 2, 3] c2opts
        { store := [], rnd := fun _ => 0, pos := 0 })).map
        (fun l => l.transforms.map (fun t => (t.kind, t.key))) =
      (okLink (write c2Ext 1 [1, 2, 3] c2opts
        { store := [], rnd := fun _ => 1, pos := 0 })).map
        (fun l => l.transforms.map (fun t => (t.kind, t.key))) := rfl
  have hAddr : (okLink (write c2Ext 1 [1, 2, 3] c2opts
        { store := [], rnd := fun _ => 0, pos := 0 })).map (fun l => l.address) ≠
      (okLink (write c2Ext 1 [1, 2, 3] c2opts
        { store := [], rnd := fun _ => 1, pos := 0 })).map (fun l => l.address) := by
    decide
  cases hw1 : write c2Ext 1 [1, 2, 3] c2opts
      { store := [], rnd := fun _ => 0, pos := 0 } with
  | error e =>
      rw [hw1] at hKeys
      cases hw2 : write c2Ext 1 [1, 2, 3] c2opts
          { store := [], rnd := fun _ => 1, pos := 0 } with
      | error e2 =>
          rw [hw1, hw2] at hAddr
          exact absurd rfl hAddr
      | ok p2 => rw [hw2] at hKeys; simp [okLink] at hKeys
  | ok p1 =>
      obtain ⟨l1, s1⟩ := p1
      cases hw2 : write c2Ext 1 [1, 2, 3] c2opts
          { store := [], rnd := fun _ => 1, pos := 0 } with
      | error e2 => rw [hw1, hw2] at hKeys; simp [okLink] at hKeys
      | ok p2 =>
          obtain ⟨l2, s2⟩ := p2
          rw [hw1, hw2] at hKeys hAddr
          simp only [okLink, Option.map_some', Option.some.injEq] at hKeys hAddr
          exact ⟨l1, s1, l2, s2, rfl, rfl, hKeys,
            fun heq => hAddr (by rw [heq])⟩


/-! ### C7: dirty propagation in the files engine -/

/-- Node `id` is recorded dirty with its modify time refreshed to `now`. -/
def DirtyWith (now : Nat) (s : FilesState) (id : Nat) : Prop :=
  ∃ n, nodesGet s.nodes id = some n ∧ n.isDirty = true ∧ n.modifyTime = some now

theorem nodesGet_filter_ne {ns : List (Nat × FNode)} {i j : Nat} (h : j ≠ i) :
    nodesGet (ns.filter (fun p => p.1 ≠ i)) j = nodesGet ns j := by
  induction ns with
  | nil => rfl
  | cons p rest ih =>
      obtain ⟨k, v⟩ := p
      by_cases hk : k = i
      · subst hk
        rw [show List.filter (fun p => decide (p.1 ≠ k)) ((k, v) :: rest) =
          List.filter (fun p => decide (p.1 ≠ k)) rest from by simp]
        rw [ih]
        show nodesGet rest j = nodesGet ((k, v) :: rest) j
        simp only [nodesGet]
        rw [if_neg (fun he => h he.symm)]
      · rw [show List.filter (fun p => decide (p.1 ≠ i)) ((k, v) :: rest) =
          (k, v) :: List.filter (fun p => decide (p.1 ≠ i)) rest from by simp [hk]]
        simp only [nodesGet]
        by_cases hkj : k = j
        · rw [if_pos hkj, if_pos hkj]
        · rw [if_neg hkj, if_neg hkj, ih]

theorem nodesGet_nodesSet (ns : List (Nat × FNode)) (i : Nat) (x : FNode) (j : Nat) :
    nodesGet (nodesSet ns i x) j = if i = j then some x else nodesGet ns j := by
  unfold nodesSet
  simp only [nodesGet]
  by_cases hij : i = j
  · rw [if_pos hij, if_pos hij]
  · rw [if_neg hij, if_neg hij]
    exact nodesGet_filter_ne (fun he => hij he.symm)

theorem markDirtyParents_pres {P : FilesState → Prop} {md : Nat → FilesState → FilesState}
    (hmd : ∀ id s, P s → P (md id s)) :
    ∀ (ps : List Nat) (s : FilesState), P s → P (markDirtyParents md ps s) := by
  intro ps
  induction ps with
  | nil => intro s h; exact h
  | cons p rest ih =>
      intro s h
      simp only [markDirtyParents]
      by_cases hp : p ≠ 0
      · rw [if_pos hp]
        exact ih _ (hmd p s h)
      · rw [if_neg hp]
        exact ih _ h

theorem markDirty_pres_dirty (now : Nat) :
    ∀ (fuel id : Nat) (s : FilesState) (j : Nat),
      DirtyWith now s j → DirtyWith now (markDirty now fuel id s) j := by
  intro fuel
  induction fuel with
  | zero => intro id s j h; exact h
  | succ fuel ih =>
      intro id s j h
      simp only [markDirty]
      split
  
      · exact h
      · rename_i node hnode
        apply markDirtyParents_pres (fun id2 s2 h2 => ih id2 s2 j h2)
        obtain ⟨n, hn, hd, hm⟩ := h
        by_cases hj : id = j
        · subst hj
          exact ⟨{ node with isDirty := true, modifyTime := some now },
            by rw [nodesGet_nodesSet, if_pos rfl], rfl, rfl⟩
        · exact ⟨n, by rw [nodesGet_nodesSet, if_neg hj]; exact hn, hd, hm⟩

theorem markDirty_pres_exists (now : Nat) :
    ∀ (fuel id : Nat) (s : FilesState) (j : Nat),
      (nodesGet s.nodes j).isSome → (nodesGet (markDirty now fuel id s).nodes j).isSome := by
  intro fuel
  induction fuel with
  | zero => intro id s j h; exact h
  | succ fuel ih =>
      intro id s j h
      simp only [markDirty]
      split
      · exact h
      · rename_i node hnode
        apply markDirtyParents_pres
          (P := fun s2 => (nodesGet s2.nodes j).isSome)
          (fun id2 s2 h2 => ih id2 s2 j h2)
        by_cases hj : id = j
        · rw [show (nodesGet (nodesSet s.nodes id
            { node with isDirty := true, modifyTime := some now }) j) =
            some { node with isDirty := true, modifyTime := some now } from by
              rw [nodesGet_nodesSet, if_pos hj]]
          rfl
        · rw [show (nodesGet (nodesSet s.nodes id
            { node with isDirty := true, modifyTime := some now }) j) =
            nodesGet s.nodes j from by rw [nodesGet_nodesSet, if_neg hj]]
          exact h

theorem markDirty_marks (now fuel id : Nat) (s : FilesState)
    (h : (nodesGet s.nodes id).isSome) :
    DirtyWith now (markDirty now (fuel + 1) id s) id := by
  simp only [markDirty]
  split
  · rename_i hnone
    rw [hnone] at h
    exact Bool.noConfusion h
  · rename_i node hnode
    apply markDirtyParents_pres (fun id2 s2 h2 => markDirty_pres_dirty now fuel id2 s2 id h2)
    exact ⟨{ node with isDirty := true, modifyTime := some now },
      by rw [nodesGet_nodesSet, if_pos rfl], rfl, rfl⟩

theorem markDirtyParents_marks (now fuel : Nat) :
    ∀ (ps : List Nat) (s : FilesState) (p : Nat), p ∈ ps → p ≠ 0 →
      (nodesGet s.nodes p).isSome →
      DirtyWith now (markDirtyParents (markDirty now (fuel + 1)) ps s) p := by
  intro ps
  induction ps with
  | nil =>
      intro s p hp
      simp at hp
  | cons q rest ih =>
      intro s p hp hp0 hex
      simp only [markDirtyParents]
      rcases List.mem_cons.1 hp with heq | hmem
      · subst heq
        rw [if_pos hp0]
        exact markDirtyParents_pres
          (fun id2 s2 h2 => markDirty_pres_dirty now (fuel + 1) id2 s2 p h2) rest _
          (markDirty_marks now fuel p s hex)
      · by_cases hq : q ≠ 0
        · rw [if_pos hq]
          exact ih _ p hmem hp0 (markDirty_pres_exists now (fuel + 1) q s p hex)
        · rw [if_neg hq]
          exact ih _ p hmem hp0 hex

/-- Initial state of the C7 scenario (an empty writable tree). -/
def c7s0 : FilesState := initialFiles writableFOpts [] (fun _ => 0) 0

def c7bind (e : Except String FilesState) (f : FilesState → Except String FilesState) :
    Except String FilesState :=
  match e with
  | Except.ok s => f s
  | Except.error e2 => Except.error e2

/-- The scenario of the claim: create `dir` (id 2) under the root, create
`file` (id 3, content [7]) under `dir`, hard-link it into the root as
`file-link`, then write it (at time 4). -/
def c7scenario : Except String FilesState :=
  c7bind (createEntry constExt constFExt writableFOpts 1 1 3 1 1 "dir" "Directory" ""
    none none c7s0) (fun s1 =>
  c7bind (createEntry constExt constFExt writableFOpts 1 1 3 2 2 "file" "File" ""
    none (some [7]) s1) (fun s2 =>
  c7bind (linkNode constExt constFExt writableFOpts 1 3 3 1 "file-link" 3 s2) (fun s3 =>
  writeFile constExt writableFOpts 1 3 4 3 [9] s3)))

def c7dirty (id : Nat) : Option Bool :=
  match c7scenario with
  | Except.ok s => (nodesGet s.nodes id).map (fun n => n.isDirty)
  | Except.error _ => none

def c7mtime (id : Nat) : Option (Option Nat) :=
  match c7scenario with
  | Except.ok s => (nodesGet s.nodes id).map (fun n => n.modifyTime)
  | Except.error _ => none

/-- C7.  `markDirty` — which every mutation (`CreateEntry`, `Link`,
`WriteFile`, `Remove`, `Rename`, `SetAttributes`) invokes on the mutated
node — marks that node dirty and refreshes its modify time, and marks
every (nonzero, existing) parent of the node, i.e. all parents of
hard-linked nodes.  In the concrete scenario of the claim — create `dir`,
create `file` inside it with content, hard-link the file into the root,
then write the file — the file (id 3), its directory (id 2) and the root
(id 1) all end up dirty, and the file's modify time is refreshed to the
write's time. -/
theorem C7_dirty_propagation (now fuel id : Nat) (s : FilesState) (node : FNode)
    (hnode : nodesGet s.nodes id = some node) :
    DirtyWith now (markDirty now (fuel + 1) id s) id ∧
    (∀ p ∈ node.parents, p ≠ 0 → (nodesGet s.nodes p).isSome →
      DirtyWith now (markDirty now (fuel + 2) id s) p) ∧
    c7dirty 3 = some true ∧ c7dirty 2 = some true ∧ c7dirty 1 = some true ∧
    c7mtime 3 = some (some 4) := by
  refine ⟨markDirty_marks now fuel id s (by rw [hnode]; rfl), ?_, rfl, rfl, rfl, rfl⟩
  intro p hp hp0 hex
  simp only [markDirty]
  split
  · rename_i hnone
    rw [hnode] at hnone
    exact Option.noConfusion hnone
  · rename_i node2 hnode2
    rw [hnode] at hnode2
    injection hnode2 with hn2
    subst hn2
    apply markDirtyParents_marks now fuel _ _ p hp hp0
    rw [nodesGet_nodesSet]
    by_cases hip : id = p
    · rw [if_pos hip]
      rfl
    · rw [if_neg hip]
      exact hex

theorem C7_dirty_propagation_witness :
    DirtyWith 5 (markDirty 5 (0 + 1) 1 c7s0) 1 :=
  (C7_dirty_propagation 5 0 1 c7s0 _ rfl).1


end Invariant
